import Mathlib

/-!
# Verification of `clean_data.py` (data-cleaning-automation)

Shallow embedding of the cleaning script's functions over `List Char`
strings, together with theorems checking the specification's claims.

Strings are modelled as `List Char`.  Case conversion (`lower`, `title`,
`[A-Z]` tests) is modelled on the ASCII range, matching the regexes in the
source (`[A-Z]`, `[^a-z]`, `[A-Za-z]`); Unicode NFKD decomposition is
modelled on a table of common Latin accented letters (ASCII characters
decompose to themselves, which matches `unicodedata.normalize("NFKD", ·)`).
Missing values (pandas `NaN`/`NA`) are modelled as the empty string on
input and `Option.none` on output, mirroring `fillna("")` and
`.replace("", pd.NA)` in the source.
-/

namespace CleanData

abbrev Str := List Char

/-- Convert a Lean string literal to the `List Char` representation. -/
def str (s : String) : Str := s.toList

/-- Whitespace as recognised by Python's `str.strip` and the `\s` regex
class on `str` values (space, tab, newline, CR, VT, FF, NBSP). -/
def pyIsSpace (c : Char) : Bool :=
  c = ' ' || c = '\t' || c = '\n' || c = '\x0d' || c = '\x0b' || c = '\x0c' ||
  c.val = 0xa0

/-- Python `str.strip()`: drop leading and trailing whitespace. -/
def pyStrip (s : Str) : Str :=
  ((s.dropWhile pyIsSpace).reverse.dropWhile pyIsSpace).reverse

/-- `needle` is a prefix of `hay`. -/
def strStarts : Str → Str → Bool
  | [], _ => true
  | _ :: _, [] => false
  | c :: cs, d :: ds => c = d && strStarts cs ds

/-- Python's `needle in hay` substring test. -/
def hasSub (needle : Str) : Str → Bool
  | [] => strStarts needle []
  | c :: rest => strStarts needle (c :: rest) || hasSub needle rest

/-- `s.encode("latin-1")` : succeeds iff every character is ≤ U+00FF. -/
def latin1Bytes? (s : Str) : Option (List Nat) :=
  if s.all (fun c => c.val ≤ 0xff) then some (s.map (fun c => c.val.toNat))
  else none

/-- Strict UTF-8 decoding of a byte list (`bytes.decode("utf-8")`),
implemented with a step-count argument bounded by the list length. -/
def utf8DecodeAux : Nat → List Nat → Option Str
  | _, [] => some []
  | 0, _ :: _ => none
  | fuel + 1, b :: bs =>
    if b ≤ 0x7f then
      (utf8DecodeAux fuel bs).map (fun t => Char.ofNat b :: t)
    else if 0xc2 ≤ b && b ≤ 0xdf then
      match bs with
      | b2 :: rest =>
        if 0x80 ≤ b2 && b2 ≤ 0xbf then
          (utf8DecodeAux fuel rest).map
            (fun t => Char.ofNat ((b - 0xc0) * 0x40 + (b2 - 0x80)) :: t)
        else none
      | [] => none
    else if 0xe0 ≤ b && b ≤ 0xef then
      match bs with
      | b2 :: b3 :: rest =>
        if 0x80 ≤ b2 && b2 ≤ 0xbf && 0x80 ≤ b3 && b3 ≤ 0xbf then
          let n := (b - 0xe0) * 0x1000 + (b2 - 0x80) * 0x40 + (b3 - 0x80)
          if 0x800 ≤ n && !(0xd800 ≤ n && n ≤ 0xdfff) then
            (utf8DecodeAux fuel rest).map (fun t => Char.ofNat n :: t)
          else none
        else none
      | _ => none
    else if 0xf0 ≤ b && b ≤ 0xf4 then
      match bs with
      | b2 :: b3 :: b4 :: rest =>
        if 0x80 ≤ b2 && b2 ≤ 0xbf && 0x80 ≤ b3 && b3 ≤ 0xbf &&
           0x80 ≤ b4 && b4 ≤ 0xbf then
          let n := (b - 0xf0) * 0x40000 + (b2 - 0x80) * 0x1000 +
                   (b3 - 0x80) * 0x40 + (b4 - 0x80)
          if 0x10000 ≤ n && n ≤ 0x10ffff then
            (utf8DecodeAux fuel rest).map (fun t => Char.ofNat n :: t)
          else none
        else none
      | _ => none
    else none

def utf8Decode? (bs : List Nat) : Option Str := utf8DecodeAux bs.length bs

/-- `maybe_demojibake` (clean_data.py lines 14-19): if the string contains
one of the two mojibake marker digraphs that appear literally in the source
file ("Ã"+"ƒ", i.e. U+00C3 U+0192, or "Ã"+"‚", i.e. U+00C3 U+201A), try
`x.encode("latin-1").decode("utf-8")`, returning `x` on any failure. -/
def maybe_demojibake (s : Str) : Str :=
  if hasSub ['Ã', 'ƒ'] s || hasSub ['Ã', '‚'] s then
    match latin1Bytes? s with
    | some bs =>
      match utf8Decode? bs with
      | some t => t
      | none => s
    | none => s
  else s

/-- ASCII lower-casing of one character (Python `str.lower` restricted to
the modelled ASCII range). -/
def asciiLower (c : Char) : Char :=
  if 'A' ≤ c && c ≤ 'Z' then Char.ofNat (c.val.toNat + 32) else c

/-- ASCII upper-casing of one character. -/
def asciiUpper (c : Char) : Char :=
  if 'a' ≤ c && c ≤ 'z' then Char.ofNat (c.val.toNat - 32) else c

def pyLower (s : Str) : Str := s.map asciiLower

/-- NFKD decomposition of one character, on the modelled subset: ASCII maps
to itself, common Latin-1 accented letters decompose into base letter plus
combining mark (`unicodedata.normalize("NFKD", ·)`). -/
def nfkdChar (c : Char) : List Char :=
  match c with
  | 'á' => ['a', '́'] | 'à' => ['a', '̀'] | 'â' => ['a', '̂']
  | 'ã' => ['a', '̃'] | 'ä' => ['a', '̈'] | 'å' => ['a', '̊']
  | 'é' => ['e', '́'] | 'è' => ['e', '̀'] | 'ê' => ['e', '̂']
  | 'ë' => ['e', '̈'] | 'í' => ['i', '́'] | 'ì' => ['i', '̀']
  | 'î' => ['i', '̂'] | 'ï' => ['i', '̈'] | 'ó' => ['o', '́']
  | 'ò' => ['o', '̀'] | 'ô' => ['o', '̂'] | 'õ' => ['o', '̃']
  | 'ö' => ['o', '̈'] | 'ú' => ['u', '́'] | 'ù' => ['u', '̀']
  | 'û' => ['u', '̂'] | 'ü' => ['u', '̈'] | 'ç' => ['c', '̧']
  | 'ñ' => ['n', '̃']
  | 'Á' => ['A', '́'] | 'À' => ['A', '̀'] | 'Â' => ['A', '̂']
  | 'Ã' => ['A', '̃'] | 'Ä' => ['A', '̈'] | 'Å' => ['A', '̊']
  | 'É' => ['E', '́'] | 'È' => ['E', '̀'] | 'Ê' => ['E', '̂']
  | 'Í' => ['I', '́'] | 'Ó' => ['O', '́'] | 'Ô' => ['O', '̂']
  | 'Õ' => ['O', '̃'] | 'Ö' => ['O', '̈'] | 'Ú' => ['U', '́']
  | 'Ü' => ['U', '̈'] | 'Ç' => ['C', '̧'] | 'Ñ' => ['N', '̃']
  | c => [c]

/-- A combining mark (`unicodedata.combining(ch)` nonzero), on the modelled
subset: the combining-diacritics block U+0300–U+036F. -/
def isCombining (c : Char) : Bool := 0x300 ≤ c.val && c.val ≤ 0x36f

/-- `strip_accents` (lines 21-23): NFKD-normalise, drop combining marks. -/
def strip_accents (s : Str) : Str :=
  (s.flatMap nfkdChar).filter (fun c => !(isCombining c))

/-- Separator punctuation collapsed by `_basic_city_clean`
(the regex class `[_\-\.,/]`). -/
def isSepPunct (c : Char) : Bool :=
  c = '_' || c = '-' || c = '.' || c = ',' || c = '/'

theorem length_dropWhile_le (p : Char → Bool) (l : Str) :
    (l.dropWhile p).length ≤ l.length := by
  induction l with
  | nil => simp [List.dropWhile]
  | cons c rest ih =>
    simp only [List.dropWhile]
    split
    · exact Nat.le_succ_of_le ih
    · simp

mutual

/-- `re.sub(r"[_\-\.,/]+", " ", x)`: each maximal run of separator
punctuation becomes a single space (`skipSeps` consumes the remainder of a
run after its first character produced the space). -/
def replaceSepRuns : Str → Str
  | [] => []
  | c :: rest =>
    if isSepPunct c then ' ' :: skipSeps rest
    else c :: replaceSepRuns rest

def skipSeps : Str → Str
  | [] => []
  | c :: rest =>
    if isSepPunct c then skipSeps rest
    else c :: replaceSepRuns rest

end

mutual

/-- `re.sub(r"\s{2,}", " ", x)`: each maximal run of two or more
whitespace characters becomes a single space; single whitespace characters
are left as they are (`skipWs` consumes the rest of a run; the character
after a run is never whitespace, so scanning resumes by emitting it). -/
def collapseWs : Str → Str
  | [] => []
  | [c] => [c]
  | c :: d :: rest =>
    if pyIsSpace c && pyIsSpace d then ' ' :: skipWs rest
    else c :: collapseWs (d :: rest)

def skipWs : Str → Str
  | [] => []
  | c :: rest =>
    if pyIsSpace c then skipWs rest
    else c :: collapseWs rest

end

/-- `_basic_city_clean` (lines 37-41). -/
def _basic_city_clean (x : Str) : Str :=
  collapseWs (replaceSepRuns (pyStrip (pyLower (strip_accents x))))

/-- `_letters_only_signature` (lines 43-44): `re.sub(r"[^a-z]", "", x)`. -/
def _letters_only_signature (x : Str) : Str :=
  x.filter (fun c => 'a' ≤ c && c ≤ 'z')

/-! ## Association lists (Python `dict` with insertion order) -/

/-- Lookup in an insertion-ordered association list (`d.get(k)`). -/
def alistGet {α β : Type} [DecidableEq α] (m : List (α × β)) (k : α) :
    Option β :=
  match m with
  | [] => none
  | (k', v) :: rest => if k' = k then some v else alistGet rest k

/-- `d[k] = v`: update in place if the key exists, else append
(Python dicts keep the original insertion position on update). -/
def alistSet {α β : Type} [DecidableEq α] (m : List (α × β)) (k : α) (v : β) :
    List (α × β) :=
  match m with
  | [] => [(k, v)]
  | (k', v') :: rest =>
    if k' = k then (k', v) :: rest else (k', v') :: alistSet rest k v

/-- `d.setdefault(k, []).append(v)`. -/
def alistAppendVal (m : List (Str × List Str)) (k : Str) (v : Str) :
    List (Str × List Str) :=
  match m with
  | [] => [(k, [v])]
  | (k', vs) :: rest =>
    if k' = k then (k', vs ++ [v]) :: rest
    else (k', vs) :: alistAppendVal rest k v

/-! ## `_choose_display_form` (lines 46-48) -/

/-- `collections.Counter(cands)`: counts keyed in first-occurrence order. -/
def counterOf (l : List Str) : List (Str × Nat) :=
  l.foldl (fun m x =>
    match alistGet m x with
    | some n => alistSet m x (n + 1)
    | none => alistSet m x 1) []

/-- `Counter.most_common(1)[0][0]`: `most_common` sorts the items by count,
descending and stable, so the first item is the first-inserted key attaining
the maximal count. -/
def mostCommon1 (m : List (Str × Nat)) : Str :=
  match m.find? (fun p => p.2 = m.foldl (fun acc q => max acc q.2) 0) with
  | some p => p.1
  | none => []

/-- `re.search(r"[A-Z]", s)` is not `None`. -/
def hasUpperAscii (s : Str) : Bool := s.any (fun c => 'A' ≤ c && c ≤ 'Z')

/-- A character Python regards as cased, on the modelled ASCII range. -/
def isCasedAscii (c : Char) : Bool :=
  ('a' ≤ c && c ≤ 'z') || ('A' ≤ c && c ≤ 'Z')

/-- Python `str.title()`: upper-case the first cased character of every
run of cased characters, lower-case the rest.  The boolean argument records
whether the previous character was cased. -/
def pyTitleGo : Bool → Str → Str
  | _, [] => []
  | prev, c :: rest =>
    if isCasedAscii c then
      (if prev then asciiLower c else asciiUpper c) :: pyTitleGo true rest
    else c :: pyTitleGo false rest

def pyTitle (s : Str) : Str := pyTitleGo false s

/-- `_choose_display_form` (lines 46-48): mode of the candidate list with
ties broken by first occurrence; title-case the result unless it already
contains an ASCII capital. -/
def _choose_display_form (cands : List Str) : Str :=
  let top := mostCommon1 (counterOf cands)
  if hasUpperAscii top then top else pyTitle top

/-! ## `difflib` similarity (`SequenceMatcher.ratio`,
`get_close_matches`), used by the cluster merger -/

/-- Ascending positions of `c` in `b` (one chain of `b2j`). -/
def positionsOf (c : Char) (b : Str) : List Nat :=
  (List.range b.length).filter (fun j => b.get? j = some c)

/-- `SequenceMatcher`'s autojunk rule: when `b` has at least 200 elements,
characters occupying more than 1% of `b` are junked out of `b2j`. -/
def isPopularJunk (b : Str) (c : Char) : Bool :=
  b.length ≥ 200 && (positionsOf c b).length > b.length / 100 + 1

/-- The `b2j` table: positions of `c` in `b`, empty for junked characters. -/
def b2jGet (b : Str) (c : Char) : List Nat :=
  if isPopularJunk b c then [] else positionsOf c b

/-- One iteration of the inner `for j in b2j[a[i]]` loop of
`find_longest_match`: threads `newj2len` and the current best block. -/
def flmStep (oldj2len : List (Nat × Nat)) (i : Nat)
    (acc : List (Nat × Nat) × Nat × Nat × Nat) (j : Nat) :
    List (Nat × Nat) × Nat × Nat × Nat :=
  let k := (if j = 0 then 0 else (alistGet oldj2len (j - 1)).getD 0) + 1
  let newj2len := alistSet acc.1 j k
  if k > acc.2.2.2 then (newj2len, i + 1 - k, j + 1 - k, k)
  else (newj2len, acc.2.1, acc.2.2.1, acc.2.2.2)

/-- The outer `for i in range(alo, ahi)` loop of `find_longest_match`. -/
def flmRows (a b : Str) (blo bhi : Nat) :
    List Nat → List (Nat × Nat) → Nat × Nat × Nat → Nat × Nat × Nat
  | [], _, best => best
  | i :: is, j2len, best =>
    let js := (b2jGet b ((a.get? i).getD '\x00')).filter
      (fun j => blo ≤ j && j < bhi)
    let r := js.foldl (flmStep j2len i) ([], best)
    flmRows a b blo bhi is r.1 r.2

/-- The `while` loops at the end of `find_longest_match` that extend the
best block over matching characters of the requested junk class, going
backwards from `besti` (each iteration decrements `besti`, so `besti`
itself bounds the number of iterations and serves as step count). -/
def flmExtBackAux (junkSel : Bool) (a b : Str) (alo blo : Nat) :
    Nat → Nat → Nat → Nat → Nat × Nat × Nat
  | 0, besti, bestj, bestsize => (besti, bestj, bestsize)
  | fuel + 1, besti, bestj, bestsize =>
    if alo < besti && blo < bestj &&
        (isPopularJunk b ((b.get? (bestj - 1)).getD '\x00') == junkSel) &&
        (a.get? (besti - 1) == b.get? (bestj - 1)) then
      flmExtBackAux junkSel a b alo blo fuel (besti - 1) (bestj - 1)
        (bestsize + 1)
    else (besti, bestj, bestsize)

def flmExtBack (junkSel : Bool) (a b : Str) (alo blo besti bestj bestsize :
    Nat) : Nat × Nat × Nat :=
  flmExtBackAux junkSel a b alo blo besti besti bestj bestsize

/-- The forward-extension `while` loops of `find_longest_match` (each
iteration increments `bestsize` while `besti + bestsize < ahi`, so `ahi`
bounds the number of iterations). -/
def flmExtFwdAux (junkSel : Bool) (a b : Str) (ahi bhi besti bestj : Nat) :
    Nat → Nat → Nat
  | 0, bestsize => bestsize
  | fuel + 1, bestsize =>
    if besti + bestsize < ahi && bestj + bestsize < bhi &&
        (isPopularJunk b ((b.get? (bestj + bestsize)).getD '\x00') == junkSel)
        && (a.get? (besti + bestsize) == b.get? (bestj + bestsize)) then
      flmExtFwdAux junkSel a b ahi bhi besti bestj fuel (bestsize + 1)
    else bestsize

def flmExtFwd (junkSel : Bool) (a b : Str) (ahi bhi besti bestj bestsize :
    Nat) : Nat :=
  flmExtFwdAux junkSel a b ahi bhi besti bestj ahi bestsize

/-- `SequenceMatcher.find_longest_match(alo, ahi, blo, bhi)`. -/
def findLongestMatch (a b : Str) (alo ahi blo bhi : Nat) : Nat × Nat × Nat :=
  let base := flmRows a b blo bhi (List.range' alo (ahi - alo)) [] (alo, blo, 0)
  let e1 := flmExtBack false a b alo blo base.1 base.2.1 base.2.2
  let k1 := flmExtFwd false a b ahi bhi e1.1 e1.2.1 e1.2.2
  let e2 := flmExtBack true a b alo blo e1.1 e1.2.1 k1
  let k2 := flmExtFwd true a b ahi bhi e2.1 e2.2.1 e2.2.2
  (e2.1, e2.2.1, k2)

/-- Total size of the matching blocks (`get_matching_blocks`): the order in
which the queue is processed does not affect the sum, so the recursion is
written directly on the two sub-intervals, with a step count bounded by the
total interval length. -/
def mTotalAux (a b : Str) : Nat → Nat → Nat → Nat → Nat → Nat
  | 0, _, _, _, _ => 0
  | fuel + 1, alo, ahi, blo, bhi =>
    let m := findLongestMatch a b alo ahi blo bhi
    let i := m.1
    let j := m.2.1
    let k := m.2.2
    if k = 0 then 0
    else k + (if alo < i && blo < j then mTotalAux a b fuel alo i blo j else 0)
           + (if i + k < ahi && j + k < bhi then
                mTotalAux a b fuel (i + k) ahi (j + k) bhi else 0)

/-- `SequenceMatcher(None, a, b).ratio()`, as an exact fraction
`(numerator, denominator)` with positive denominator: `2.0 * M / T`, and
`1.0` when both sequences are empty.  CPython computes the ratio and the
`fuzzy_cutoff=0.92` in floating point; every comparison made in this
development is far from the rounding error of a double, so exact fractions
give the same outcomes. -/
def ratioFrac (a b : Str) : Nat × Nat :=
  let M := mTotalAux a b (a.length + b.length + 1) 0 a.length 0 b.length
  if a.length + b.length = 0 then (1, 1)
  else (2 * M, a.length + b.length)

/-- `ratio < cutoff` fails, i.e. the candidate passes the cutoff filter of
`get_close_matches` (cutoff given as the fraction `cutN / cutD`). -/
def ratioGeCut (cutN cutD : Nat) (r : Nat × Nat) : Bool :=
  cutN * r.2 ≤ cutD * r.1

/-- Python string comparison `x < y` (code-point lexicographic). -/
def strLtPy : Str → Str → Bool
  | [], [] => false
  | [], _ :: _ => true
  | _ :: _, [] => false
  | c :: cs, d :: ds =>
    if c.val.toNat < d.val.toNat then true
    else if d.val.toNat < c.val.toNat then false
    else strLtPy cs ds

/-- Strict order on `(ratio, string)` pairs, as compared by
`heapq.nlargest` inside `get_close_matches` (ratios compared by
cross-multiplication of the exact fractions). -/
def scorePairLt (p q : (Nat × Nat) × Str) : Bool :=
  p.1.1 * q.1.2 < q.1.1 * p.1.2 ||
  (p.1.1 * q.1.2 = q.1.1 * p.1.2 && strLtPy p.2 q.2)

/-- The running-maximum fold used by `get_close_matches`/`heapq.nlargest`
to pick the best `(ratio, candidate)` pair. -/
def bestFold {α : Type} (lt : α → α → Bool) (l : List α) : Option α :=
  l.foldl (fun best rx =>
    match best with
    | none => some rx
    | some b => if lt b rx then some rx else some b) none

/-- Explicit selection by a total order: the first element that no other
element strictly exceeds. -/
def specPick {α : Type} (lt : α → α → Bool) (l : List α) : Option α :=
  l.find? (fun x => l.all (fun y => !(lt x y)))

/-- `difflib.get_close_matches(word, possibilities, n=1, cutoff)[0]`:
keep the possibilities whose ratio against `word` reaches the cutoff
(`real_quick_ratio` and `quick_ratio` are upper bounds of `ratio`, so the
two quick pre-filters never change the outcome), then take the greatest
`(ratio, possibility)` pair. -/
def getCloseMatch1 (word : Str) (poss : List Str) (cutN cutD : Nat) :
    Option Str :=
  (bestFold scorePairLt (poss.filterMap (fun x =>
    if ratioGeCut cutN cutD (ratioFrac x word) then
      some (ratioFrac x word, x)
    else none))).map (·.2)

/-! ## `build_city_canon` (lines 50-76) and `clean_city` (lines 78-82) -/

/-- Insert into a descending-by-size list, after any entry of equal size:
one step of the stable sort performed by
`sorted(sizes, key=lambda k: sizes[k], reverse=True)`. -/
def insertDesc (x : Str × Nat) : List (Str × Nat) → List (Str × Nat)
  | [] => [x]
  | y :: ys => if x.2 ≤ y.2 then y :: insertDesc x ys else x :: y :: ys

/-- Stable descending sort by count (ties keep insertion order), matching
Python's stable `sorted(..., reverse=True)`. -/
def stableSortDesc (l : List (Str × Nat)) : List (Str × Nat) :=
  l.foldl (fun acc x => insertDesc x acc) []

/-- The per-row data `(raw, basic, sig)` of the temporary frame `tmp`
(lines 51-55): trimmed raw value, `_basic_city_clean` of it, and its
letters-only signature. -/
def cityRows (col : List Str) : List (Str × Str × Str) :=
  col.map (fun v =>
    let r := pyStrip (maybe_demojibake v)
    let b := _basic_city_clean r
    (r, b, _letters_only_signature b))

/-- The `groups` dict (lines 56-59): signature → list of trimmed raw
values, rows with empty `basic` excluded. -/
def cityGroups (col : List Str) : List (Str × List Str) :=
  (cityRows col).foldl (fun g rbs =>
    if rbs.2.1 ≠ [] then alistAppendVal g rbs.2.2 rbs.1 else g) []

/-- `sig_to_disp` (line 60). -/
def sigToDisp (col : List Str) : List (Str × Str) :=
  (cityGroups col).map (fun p => (p.1, _choose_display_form p.2))

/-- `sizes` (line 61). -/
def citySizes (col : List Str) : List (Str × Nat) :=
  (cityGroups col).map (fun p => (p.1, p.2.length))

/-- `ordered` (line 62): signatures sorted by descending cluster size. -/
def cityOrdered (col : List Str) : List Str :=
  (stableSortDesc (citySizes col)).map (·.1)

/-- The `merged` dict (lines 63-67): process signatures from smallest
cluster to largest; the anchors of `small` are all signatures of ≥ size;
a close-enough best match creates the merge edge `small → match`. -/
def cityMerged (col : List Str) (cutN cutD : Nat) : List (Str × Str) :=
  (cityOrdered col).reverse.foldl (fun m small =>
    match getCloseMatch1 small ((cityOrdered col).filter (fun s =>
        (alistGet (citySizes col) small).getD 0
          ≤ (alistGet (citySizes col) s).getD 0 && s ≠ small)) cutN cutD with
    | some b => m ++ [(small, b)]
    | none => m) []

/-- `n` steps of the `root` loop (lines 68-70): follow merge edges while
the signature has one. -/
def rootN (m : List (Str × Str)) : Nat → Str → Str
  | 0, sg => sg
  | n + 1, sg =>
    match alistGet m sg with
    | some t => rootN m n t
    | none => sg

/-- Python's `root` runs the loop with no bound and diverges on a cycle;
whenever it terminates it takes at most one step per key of `merged`, so
running `rootN` with fuel `m.length` computes the same value. -/
def cityRoot (m : List (Str × Str)) (sg : Str) : Str := rootN m m.length sg

/-- The root-following loop of `root` terminates when started at `sg`. -/
def RootTerminates (m : List (Str × Str)) (sg : Str) : Prop :=
  ∃ n, alistGet m (rootN m n sg) = none

/-- `final_disp` (line 71): map every signature to the display form of its
root (`sig_to_disp.get(root(sig), sig_to_disp[sig])`; the fallbacks are
unreachable because roots of present signatures are present). -/
def cityFinalDisp (col : List Str) (cutN cutD : Nat) : List (Str × Str) :=
  (sigToDisp col).map (fun p =>
    (p.1, (alistGet (sigToDisp col)
            (cityRoot (cityMerged col cutN cutD) p.1)).getD
          ((alistGet (sigToDisp col) p.1).getD [])))

/-- `build_city_canon` (lines 50-76): the mapping from trimmed raw value
to canonical display string (cutoff defaults to `fuzzy_cutoff=0.92`). -/
def build_city_canon (col : List Str) (cutN : Nat := 92)
    (cutD : Nat := 100) : List (Str × Str) :=
  (cityRows col).foldl (fun mp rbs =>
    if rbs.2.1 ≠ [] then
      alistSet mp rbs.1
        ((alistGet (cityFinalDisp col cutN cutD) rbs.2.2).getD rbs.1)
    else mp) []

/-- `clean_city` (lines 78-82): trim, turn blanks into the missing marker,
send every other value through the mapping (identity if absent). -/
def clean_city (col : List Str) : List (Option Str) :=
  col.map (fun v =>
    if pyStrip (maybe_demojibake v) = [] then none
    else some ((alistGet (build_city_canon col)
      (pyStrip (maybe_demojibake v))).getD (pyStrip (maybe_demojibake v))))

/-! ## Association-list lemmas -/

theorem alistGet_set_self {α β : Type} [DecidableEq α]
    (m : List (α × β)) (k : α) (v : β) :
    alistGet (alistSet m k v) k = some v := by
  induction m with
  | nil => simp [alistSet, alistGet]
  | cons p rest ih =>
    by_cases h : p.1 = k
    · simp [alistSet, alistGet, h]
    · simp [alistSet, alistGet, h, ih]

theorem alistGet_set_ne {α β : Type} [DecidableEq α]
    (m : List (α × β)) (k k' : α) (v : β) (h : k ≠ k') :
    alistGet (alistSet m k v) k' = alistGet m k' := by
  induction m with
  | nil => simp [alistSet, alistGet, h]
  | cons p rest ih =>
    by_cases h' : p.1 = k
    · subst h'
      simp [alistSet, alistGet, h]
    · simp [alistSet, alistGet, h', ih]

theorem alistGet_appendVal_isSome (g : List (Str × List Str))
    (k v : Str) (k' : Str) :
    (alistGet (alistAppendVal g k v) k').isSome
      ↔ (k = k' ∨ (alistGet g k').isSome) := by
  induction g with
  | nil =>
    by_cases h : k = k' <;> simp [alistAppendVal, alistGet, h]
  | cons p rest ih =>
    by_cases h : p.1 = k
    · subst h
      by_cases h' : p.1 = k' <;> simp [alistAppendVal, alistGet, h']
    · have hne : ¬(p.1 = k) := h
      by_cases h' : p.1 = k'
      · subst h'
        have hne2 : ¬(p.1 = k) := hne
        simp [alistAppendVal, alistGet, hne2]
      · simp [alistAppendVal, alistGet, hne, h', ih]

/-- Lookup across `l.map (fun p => (p.1, f p))` keeps definedness. -/
theorem alistGet_mapPair_isSome {α β : Type} (f : Str × α → β)
    (l : List (Str × α)) (k : Str) :
    (alistGet (l.map (fun p => (p.1, f p))) k).isSome
      = (alistGet l k).isSome := by
  induction l with
  | nil => simp [alistGet]
  | cons p rest ih =>
    by_cases h : p.1 = k <;> simp [alistGet, h, ih]

/-! ## Structure of the `build_city_canon` fold -/

/-- Every row of `cityRows` carries the basic form and signature computed
from its own trimmed raw value. -/
theorem cityRows_consistent (col : List Str) :
    ∀ p ∈ cityRows col,
      p.2.1 = _basic_city_clean p.1 ∧
      p.2.2 = _letters_only_signature (_basic_city_clean p.1) := by
  intro p hp
  simp only [cityRows, List.mem_map] at hp
  obtain ⟨v, _, hv⟩ := hp
  subst hv
  exact ⟨rfl, rfl⟩

/-- Every column member produces its row in `cityRows`. -/
theorem mem_cityRows_of_mem (col : List Str) (v : Str) (hv : v ∈ col) :
    (pyStrip (maybe_demojibake v),
     _basic_city_clean (pyStrip (maybe_demojibake v)),
     _letters_only_signature (_basic_city_clean (pyStrip (maybe_demojibake v))))
      ∈ cityRows col := by
  simp only [cityRows, List.mem_map]
  exact ⟨v, hv, rfl⟩

/-- What the final `mapping` fold of `build_city_canon` assigns: any raw
value that occurs in the rows with a nonempty basic form, and whose rows
all agree on the stored value `v`, ends up mapped to `v`. -/
theorem mapping_fold_get (fd : List (Str × Str))
    (rows : List (Str × Str × Str)) (acc : List (Str × Str)) (t v : Str)
    (hval : ∀ p ∈ rows, p.1 = t → p.2.1 ≠ [] →
      (alistGet fd p.2.2).getD p.1 = v)
    (hocc : (∃ p ∈ rows, p.1 = t ∧ p.2.1 ≠ []) ∨ alistGet acc t = some v) :
    alistGet (rows.foldl (fun mp rbs =>
      if rbs.2.1 ≠ [] then
        alistSet mp rbs.1 ((alistGet fd rbs.2.2).getD rbs.1)
      else mp) acc) t = some v := by
  induction rows generalizing acc with
  | nil =>
    rcases hocc with ⟨p, hp, _⟩ | h
    · exact absurd hp (List.not_mem_nil p)
    · simpa [List.foldl] using h
  | cons p rest ih =>
    simp only [List.foldl]
    apply ih
    · intro q hq hq1 hq2
      exact hval q (List.mem_cons_of_mem p hq) hq1 hq2
    · rcases hocc with ⟨q, hq, hq1, hq2⟩ | h
      · rcases List.mem_cons.mp hq with rfl | hq'
        · right
          have hv := hval q (List.mem_cons_self q rest) hq1 hq2
          rw [if_pos hq2, hv, hq1]
          exact alistGet_set_self acc t v
        · exact Or.inl ⟨q, hq', hq1, hq2⟩
      · right
        by_cases h1 : p.2.1 = []
        · simpa [h1] using h
        · rw [if_pos h1]
          by_cases h2 : p.1 = t
          · subst h2
            have hv := hval p (List.mem_cons_self p rest) rfl h1
            rw [hv]
            exact alistGet_set_self acc p.1 v
          · rw [alistGet_set_ne acc p.1 t _ h2]
            exact h

/-- A signature that occurs in a row with nonempty basic form is a key of
the `groups` dict. -/
theorem groups_fold_isSome (rows : List (Str × Str × Str))
    (acc : List (Str × List Str)) (sg : Str)
    (hocc : (∃ p ∈ rows, p.2.2 = sg ∧ p.2.1 ≠ []) ∨
      (alistGet acc sg).isSome) :
    (alistGet (rows.foldl (fun g rbs =>
      if rbs.2.1 ≠ [] then alistAppendVal g rbs.2.2 rbs.1 else g) acc)
      sg).isSome := by
  induction rows generalizing acc with
  | nil =>
    rcases hocc with ⟨p, hp, _⟩ | h
    · exact absurd hp (List.not_mem_nil p)
    · simpa [List.foldl] using h
  | cons p rest ih =>
    simp only [List.foldl]
    apply ih
    rcases hocc with ⟨q, hq, hq1, hq2⟩ | h
    · rcases List.mem_cons.mp hq with rfl | hq'
      · right
        rw [if_pos hq2]
        exact (alistGet_appendVal_isSome _ _ _ _).mpr (Or.inl hq1)
      · exact Or.inl ⟨q, hq', hq1, hq2⟩
    · right
      by_cases h1 : p.2.1 = []
      · simpa [h1] using h
      · rw [if_pos h1]
        exact (alistGet_appendVal_isSome _ _ _ _).mpr (Or.inr h)

theorem cityGroups_isSome (col : List Str) (v : Str) (hv : v ∈ col)
    (hb : _basic_city_clean (pyStrip (maybe_demojibake v)) ≠ []) :
    (alistGet (cityGroups col)
      (_letters_only_signature
        (_basic_city_clean (pyStrip (maybe_demojibake v))))).isSome := by
  apply groups_fold_isSome
  exact Or.inl ⟨_, mem_cityRows_of_mem col v hv, rfl, hb⟩

theorem sigToDisp_isSome (col : List Str) (sg : Str)
    (h : (alistGet (cityGroups col) sg).isSome) :
    (alistGet (sigToDisp col) sg).isSome := by
  unfold sigToDisp
  rw [alistGet_mapPair_isSome (fun p => _choose_display_form p.2)]
  exact h

/-- `cityFinalDisp` is defined on every signature present in the groups. -/
theorem cityFinalDisp_isSome (col : List Str) (cutN cutD : Nat) (sg : Str)
    (h : (alistGet (cityGroups col) sg).isSome) :
    (alistGet (cityFinalDisp col cutN cutD) sg).isSome := by
  unfold cityFinalDisp
  rw [alistGet_mapPair_isSome (fun p =>
    (alistGet (sigToDisp col)
      (cityRoot (cityMerged col cutN cutD) p.1)).getD
    ((alistGet (sigToDisp col) p.1).getD []))]
  exact sigToDisp_isSome col sg h

/-- The value `build_city_canon` assigns to an in-column trimmed raw value
with nonempty basic form: the resolved display of its signature. -/
theorem build_city_canon_get (col : List Str) (cutN cutD : Nat) (v : Str)
    (hv : v ∈ col)
    (hb : _basic_city_clean (pyStrip (maybe_demojibake v)) ≠ []) :
    alistGet (build_city_canon col cutN cutD) (pyStrip (maybe_demojibake v))
      = some ((alistGet (cityFinalDisp col cutN cutD)
          (_letters_only_signature
            (_basic_city_clean (pyStrip (maybe_demojibake v))))).getD
          (pyStrip (maybe_demojibake v))) := by
  unfold build_city_canon
  apply mapping_fold_get
  · intro p hp hp1 hp2
    obtain ⟨hb1, hb2⟩ := cityRows_consistent col p hp
    rw [hb2, hp1]
  · exact Or.inl ⟨_, mem_cityRows_of_mem col v hv, rfl, hb⟩

/-- Helper shared by the signature-equivalence claims: two column members
with nonempty basic forms and equal signatures get the same (defined)
canonical value from `build_city_canon`. -/
theorem canon_eq_of_sig_eq (col : List Str) (a b : Str)
    (ha : a ∈ col) (hb : b ∈ col)
    (ha' : _basic_city_clean (pyStrip (maybe_demojibake a)) ≠ [])
    (hb' : _basic_city_clean (pyStrip (maybe_demojibake b)) ≠ [])
    (hsig : _letters_only_signature
        (_basic_city_clean (pyStrip (maybe_demojibake a)))
      = _letters_only_signature
        (_basic_city_clean (pyStrip (maybe_demojibake b)))) :
    (alistGet (build_city_canon col) (pyStrip (maybe_demojibake a))).isSome ∧
    alistGet (build_city_canon col) (pyStrip (maybe_demojibake a))
      = alistGet (build_city_canon col) (pyStrip (maybe_demojibake b)) := by
  have hga := build_city_canon_get col 92 100 a ha ha'
  have hgb := build_city_canon_get col 92 100 b hb hb'
  have hfa := cityFinalDisp_isSome col 92 100
    (_letters_only_signature (_basic_city_clean (pyStrip (maybe_demojibake a))))
    (cityGroups_isSome col a ha ha')
  obtain ⟨da, hda⟩ := Option.isSome_iff_exists.mp hfa
  rw [hda] at hga
  rw [← hsig, hda] at hgb
  simp only [Option.getD_some] at hga hgb
  rw [hga, hgb]
  exact ⟨rfl, rfl⟩

/-- C2: for every input column and every pair of raw values in it whose
basic forms are nonempty (so the mapping is defined on them) and whose
letters-only signatures agree, `build_city_canon` sends both (trimmed)
values to the same canonical display string. -/
theorem c2_equal_signature_same_canonical (col : List Str) (a b : Str)
    (ha : a ∈ col) (hb : b ∈ col)
    (ha' : _basic_city_clean (pyStrip (maybe_demojibake a)) ≠ [])
    (hb' : _basic_city_clean (pyStrip (maybe_demojibake b)) ≠ [])
    (hsig : _letters_only_signature
        (_basic_city_clean (pyStrip (maybe_demojibake a)))
      = _letters_only_signature
        (_basic_city_clean (pyStrip (maybe_demojibake b)))) :
    (alistGet (build_city_canon col) (pyStrip (maybe_demojibake a))).isSome ∧
    alistGet (build_city_canon col) (pyStrip (maybe_demojibake a))
      = alistGet (build_city_canon col) (pyStrip (maybe_demojibake b)) :=
  canon_eq_of_sig_eq col a b ha hb ha' hb' hsig

/-- Witness for C2 at the column `["NYC", "n-y-c"]`: both values have
signature "nyc" and receive the same canonical string. -/
theorem c2_equal_signature_same_canonical_witness :
    (alistGet (build_city_canon [str "NYC", str "n-y-c"])
      (pyStrip (maybe_demojibake (str "NYC")))).isSome ∧
    alistGet (build_city_canon [str "NYC", str "n-y-c"])
      (pyStrip (maybe_demojibake (str "NYC")))
    = alistGet (build_city_canon [str "NYC", str "n-y-c"])
      (pyStrip (maybe_demojibake (str "n-y-c"))) :=
  c2_equal_signature_same_canonical [str "NYC", str "n-y-c"]
    (str "NYC") (str "n-y-c") (by decide) (by decide) (by decide) (by decide)
    (by decide)

/-- ASCII letter test used to state C10. -/
def isAsciiLetter (c : Char) : Bool :=
  ('a' ≤ c && c ≤ 'z') || ('A' ≤ c && c ≤ 'Z')

/-- C10: two distinct raw values whose basic forms are nonempty but contain
no ASCII letter both get the empty signature, land in one shared cluster,
and are canonicalised to one common display string. -/
theorem c10_letterless_values_share_cluster (col : List Str) (a b : Str)
    (ha : a ∈ col) (hb : b ∈ col) (_hab : a ≠ b)
    (ha1 : _basic_city_clean (pyStrip (maybe_demojibake a)) ≠ [])
    (hb1 : _basic_city_clean (pyStrip (maybe_demojibake b)) ≠ [])
    (ha2 : ∀ c ∈ _basic_city_clean (pyStrip (maybe_demojibake a)),
      isAsciiLetter c = false)
    (hb2 : ∀ c ∈ _basic_city_clean (pyStrip (maybe_demojibake b)),
      isAsciiLetter c = false) :
    _letters_only_signature
        (_basic_city_clean (pyStrip (maybe_demojibake a))) = [] ∧
    _letters_only_signature
        (_basic_city_clean (pyStrip (maybe_demojibake b))) = [] ∧
    (alistGet (build_city_canon col) (pyStrip (maybe_demojibake a))).isSome ∧
    alistGet (build_city_canon col) (pyStrip (maybe_demojibake a))
      = alistGet (build_city_canon col) (pyStrip (maybe_demojibake b)) := by
  have hsa : _letters_only_signature
      (_basic_city_clean (pyStrip (maybe_demojibake a))) = [] := by
    unfold _letters_only_signature
    rw [List.filter_eq_nil_iff]
    intro c hc
    have h := ha2 c hc
    simp only [isAsciiLetter, Bool.or_eq_false_iff,
      Bool.and_eq_false_iff] at h
    intro hcontra
    simp only [Bool.and_eq_true, decide_eq_true_eq] at hcontra
    rcases h.1 with h' | h' <;> simp_all
  have hsb : _letters_only_signature
      (_basic_city_clean (pyStrip (maybe_demojibake b))) = [] := by
    unfold _letters_only_signature
    rw [List.filter_eq_nil_iff]
    intro c hc
    have h := hb2 c hc
    simp only [isAsciiLetter, Bool.or_eq_false_iff,
      Bool.and_eq_false_iff] at h
    intro hcontra
    simp only [Bool.and_eq_true, decide_eq_true_eq] at hcontra
    rcases h.1 with h' | h' <;> simp_all
  obtain ⟨h1, h2⟩ := canon_eq_of_sig_eq col a b ha hb ha1 hb1
    (hsa.trans hsb.symm)
  exact ⟨hsa, hsb, h1, h2⟩

/-- Witness for C10 at the column `["123", "987"]`. -/
theorem c10_letterless_values_share_cluster_witness :
    _letters_only_signature
        (_basic_city_clean (pyStrip (maybe_demojibake (str "123")))) = [] ∧
    _letters_only_signature
        (_basic_city_clean (pyStrip (maybe_demojibake (str "987")))) = [] ∧
    (alistGet (build_city_canon [str "123", str "987"])
      (pyStrip (maybe_demojibake (str "123")))).isSome ∧
    alistGet (build_city_canon [str "123", str "987"])
      (pyStrip (maybe_demojibake (str "123")))
    = alistGet (build_city_canon [str "123", str "987"])
      (pyStrip (maybe_demojibake (str "987"))) :=
  c10_letterless_values_share_cluster [str "123", str "987"]
    (str "123") (str "987") (by decide) (by decide) (by decide) (by decide)
    (by decide) (by decide) (by decide)

/-! ## C1: the merge structure can contain a cycle (code bug) -/

/-- Failing input for C1: two singleton clusters whose signatures have
similarity 24/26 ≈ 0.923 ≥ 0.92 in both directions. -/
def cycleCol : List Str := [str "abcdefghijklm", str "abcdefghijkln"]

/-- C1: the claim fails on the code.  On `cycleCol` the two same-frequency
mutually-similar clusters each receive a merge edge pointing at the other,
so `merged` contains a two-cycle and the `root` loop of `build_city_canon`
never terminates (the Python program hangs). -/
theorem c1_merge_cycle_root_diverges :
    alistGet (cityMerged cycleCol 92 100) (str "abcdefghijklm")
      = some (str "abcdefghijkln") ∧
    alistGet (cityMerged cycleCol 92 100) (str "abcdefghijkln")
      = some (str "abcdefghijklm") ∧
    ¬ RootTerminates (cityMerged cycleCol 92 100) (str "abcdefghijklm") := by
  have h1 : alistGet (cityMerged cycleCol 92 100) (str "abcdefghijklm")
      = some (str "abcdefghijkln") := by decide
  have h2 : alistGet (cityMerged cycleCol 92 100) (str "abcdefghijkln")
      = some (str "abcdefghijklm") := by decide
  refine ⟨h1, h2, ?_⟩
  rintro ⟨n, hn⟩
  have key : ∀ k s, (s = str "abcdefghijklm" ∨ s = str "abcdefghijkln") →
      rootN (cityMerged cycleCol 92 100) k s = str "abcdefghijklm" ∨
      rootN (cityMerged cycleCol 92 100) k s = str "abcdefghijkln" := by
    intro k
    induction k with
    | zero => intro s hs; simpa [rootN] using hs
    | succ k ih =>
      intro s hs
      rcases hs with rfl | rfl
      · rw [show rootN (cityMerged cycleCol 92 100) (k + 1)
              (str "abcdefghijklm")
            = rootN (cityMerged cycleCol 92 100) k (str "abcdefghijkln")
            from by rw [rootN, h1]]
        exact ih _ (Or.inr rfl)
      · rw [show rootN (cityMerged cycleCol 92 100) (k + 1)
              (str "abcdefghijkln")
            = rootN (cityMerged cycleCol 92 100) k (str "abcdefghijklm")
            from by rw [rootN, h2]]
        exact ih _ (Or.inl rfl)
  rcases key n _ (Or.inl rfl) with h | h <;> rw [h] at hn
  · rw [h1] at hn
    exact Option.noConfusion hn
  · rw [h2] at hn
    exact Option.noConfusion hn

/-! ## Counter semantics: `most_common(1)` really is the first-occurrence
mode (machinery for C5 and C4) -/

theorem alistGet_isSome_iff_mem_keys {α β : Type} [DecidableEq α]
    (m : List (α × β)) (x : α) :
    (alistGet m x).isSome ↔ x ∈ m.map (·.1) := by
  induction m with
  | nil => simp [alistGet]
  | cons p rest ih =>
    by_cases h : p.1 = x
    · simp [alistGet, h]
    · rw [alistGet, if_neg h]
      simp only [List.map_cons, List.mem_cons]
      rw [ih]
      constructor
      · exact Or.inr
      · rintro (hc | hc)
        · exact absurd hc.symm h
        · exact hc

theorem mem_of_alistGet_eq_some {α β : Type} [DecidableEq α]
    (m : List (α × β)) (x : α) (n : β) (h : alistGet m x = some n) :
    (x, n) ∈ m := by
  induction m with
  | nil => simp [alistGet] at h
  | cons p rest ih =>
    by_cases h' : p.1 = x
    · rw [alistGet, if_pos h'] at h
      have hp : p = (x, n) := by
        obtain ⟨p1, p2⟩ := p
        simp only at h' h
        rw [h', Option.some_inj.mp h]
      rw [hp]
      exact List.mem_cons_self _ _
    · rw [alistGet, if_neg h'] at h
      exact List.mem_cons_of_mem p (ih h)

theorem alistGet_of_mem_of_nodup_keys {α β : Type} [DecidableEq α]
    (m : List (α × β)) (x : α) (n : β)
    (hnd : (m.map (·.1)).Pairwise (· ≠ ·)) (h : (x, n) ∈ m) :
    alistGet m x = some n := by
  induction m with
  | nil => simp at h
  | cons p rest ih =>
    obtain ⟨hhead, htail⟩ :=
      List.pairwise_cons.mp (by simpa only [List.map_cons] using hnd)
    rcases List.mem_cons.mp h with rfl | h'
    · simp [alistGet]
    · have hne : p.1 ≠ x :=
        hhead x (List.mem_map_of_mem (·.1) h')
      rw [alistGet, if_neg hne]
      exact ih htail h'

theorem alistSet_keys {α β : Type} [DecidableEq α]
    (m : List (α × β)) (k : α) (v : β) :
    (alistSet m k v).map (·.1)
      = if (alistGet m k).isSome then m.map (·.1) else m.map (·.1) ++ [k] := by
  induction m with
  | nil => simp [alistSet, alistGet]
  | cons p rest ih =>
    by_cases h : p.1 = k
    · simp [alistSet, alistGet, h]
    · simp only [alistSet, alistGet, if_neg h, List.map_cons, ih]
      by_cases h2 : (alistGet rest k).isSome <;> simp [h2]

theorem counterOf_snoc (l : List Str) (y : Str) :
    counterOf (l ++ [y]) =
      match alistGet (counterOf l) y with
      | some n => alistSet (counterOf l) y (n + 1)
      | none => alistSet (counterOf l) y 1 := by
  unfold counterOf
  rw [List.foldl_append]
  rfl

/-- Index of the first occurrence of `x` in `l` (the input-order position
used by the tie-break rules; `l.length` when absent). -/
def firstIdx (l : List Str) (x : Str) : Nat :=
  match l with
  | [] => 0
  | y :: rest => if y = x then 0 else firstIdx rest x + 1

theorem firstIdx_append_mem (a : Str) (l1 l2 : List Str) (h : a ∈ l1) :
    firstIdx (l1 ++ l2) a = firstIdx l1 a := by
  induction l1 with
  | nil => simp at h
  | cons b rest ih =>
    by_cases hb : b = a
    · simp [firstIdx, hb]
    · rcases List.mem_cons.mp h with rfl | h'
      · exact absurd rfl hb
      · simp [firstIdx, hb, ih h']

theorem firstIdx_append_not_mem (a : Str) (l1 l2 : List Str) (h : a ∉ l1) :
    firstIdx (l1 ++ l2) a = l1.length + firstIdx l2 a := by
  induction l1 with
  | nil => simp
  | cons b rest ih =>
    have hb : b ≠ a := fun hc => h (hc ▸ List.mem_cons_self b rest)
    have h' : a ∉ rest := fun hc => h (List.mem_cons_of_mem b hc)
    show (if b = a then 0 else firstIdx (rest ++ l2) a + 1)
      = rest.length + 1 + firstIdx l2 a
    rw [if_neg hb, ih h']
    omega

theorem firstIdx_lt_length (a : Str) (l : List Str) (h : a ∈ l) :
    firstIdx l a < l.length := by
  induction l with
  | nil => simp at h
  | cons b rest ih =>
    by_cases hb : b = a
    · simp [firstIdx, hb]
    · rcases List.mem_cons.mp h with rfl | h'
      · exact absurd rfl hb
      · simp only [firstIdx, if_neg hb, List.length_cons]
        exact Nat.succ_lt_succ (ih h')

/-- The Counter holds exactly the occurrence counts of the candidate list,
and its keys appear in strictly increasing first-occurrence order. -/
theorem counterOf_spec (l : List Str) :
    (∀ x, alistGet (counterOf l) x
        = if x ∈ l then some (l.count x) else none) ∧
    ((counterOf l).map (·.1)).Pairwise
      (fun a b => firstIdx l a < firstIdx l b) := by
  induction l using List.reverseRecOn with
  | nil => exact ⟨fun x => by simp [counterOf, alistGet], by simp [counterOf]⟩
  | append_singleton l y ih =>
    obtain ⟨ihget, ihord⟩ := ih
    have hmemkeys : ∀ x, x ∈ (counterOf l).map (·.1) ↔ x ∈ l := by
      intro x
      rw [← alistGet_isSome_iff_mem_keys, ihget x]
      by_cases h : x ∈ l <;> simp [h]
    constructor
    · intro x
      rw [counterOf_snoc]
      by_cases hxy : x = y
      · subst hxy
        by_cases hx : x ∈ l
        · rw [ihget x, if_pos hx]
          simp only []
          rw [alistGet_set_self, if_pos (List.mem_append_left _ hx)]
          rw [List.count_append]
          simp
        · rw [ihget x, if_neg hx]
          simp only []
          rw [alistGet_set_self, if_pos (by simp)]
          rw [List.count_append, List.count_eq_zero.mpr hx]
          simp
      · have hyx : ¬(y = x) := fun h => hxy h.symm
        rcases hm : alistGet (counterOf l) y with _ | n <;>
        · simp only []
          rw [alistGet_set_ne _ _ _ _ hyx, ihget x]
          by_cases hx : x ∈ l
          · have hz : List.count x [y] = 0 :=
              List.count_eq_zero.mpr (by
                simp only [List.mem_singleton]
                exact hxy)
            rw [if_pos hx, if_pos (List.mem_append_left _ hx),
              List.count_append, hz, Nat.add_zero]
          · rw [if_neg hx, if_neg (by simp [hx, hxy])]
    · rw [counterOf_snoc]
      have hlift : ((counterOf l).map (·.1)).Pairwise
          (fun a b => firstIdx (l ++ [y]) a < firstIdx (l ++ [y]) b) := by
        apply List.Pairwise.imp_of_mem ?_ ihord
        intro a b ha hb hab
        rw [firstIdx_append_mem a l [y] ((hmemkeys a).mp ha),
          firstIdx_append_mem b l [y] ((hmemkeys b).mp hb)]
        exact hab
      rcases hm : alistGet (counterOf l) y with _ | n
      · have hy : y ∉ l := by
          intro hy
          rw [ihget y, if_pos hy] at hm
          exact Option.noConfusion hm
        simp only []
        rw [alistSet_keys, if_neg (by rw [hm]; simp)]
        rw [List.pairwise_append]
        refine ⟨hlift, by simp, ?_⟩
        intro a ha b hb
        rw [List.mem_singleton] at hb
        rw [hb]
        rw [firstIdx_append_mem a l [y] ((hmemkeys a).mp ha),
          firstIdx_append_not_mem y l [y] hy]
        have := firstIdx_lt_length a l ((hmemkeys a).mp ha)
        simp only [firstIdx, if_pos rfl]
        omega
      · simp only []
        rw [alistSet_keys, if_pos (by rw [hm]; simp)]
        exact hlift

theorem foldl_max_acc_le (m : List (Str × Nat)) (acc : Nat) :
    acc ≤ m.foldl (fun a q => max a q.2) acc := by
  induction m generalizing acc with
  | nil => simp
  | cons q rest ih =>
    simp only [List.foldl]
    exact le_trans (le_max_left acc q.2) (ih _)

theorem foldl_max_ge (m : List (Str × Nat)) (acc : Nat) :
    ∀ p ∈ m, p.2 ≤ m.foldl (fun a q => max a q.2) acc := by
  induction m generalizing acc with
  | nil => simp
  | cons q rest ih =>
    intro p hp
    rcases List.mem_cons.mp hp with rfl | hp'
    · simp only [List.foldl]
      exact le_trans (le_max_right acc p.2) (foldl_max_acc_le _ _)
    · exact ih _ p hp'

theorem foldl_max_attained (m : List (Str × Nat)) (acc : Nat) :
    m.foldl (fun a q => max a q.2) acc = acc ∨
    ∃ p ∈ m, m.foldl (fun a q => max a q.2) acc = p.2 := by
  induction m generalizing acc with
  | nil => simp
  | cons q rest ih =>
    simp only [List.foldl]
    rcases ih (max acc q.2) with h | ⟨p, hp, h⟩
    · rcases Nat.le_total acc q.2 with h' | h'
      · right
        exact ⟨q, List.mem_cons_self _ _, by rw [h, max_eq_right h']⟩
      · left
        rw [h, max_eq_left h']
    · right
      exact ⟨p, List.mem_cons_of_mem _ hp, h⟩

/-- `find?` on a `Pairwise`-ordered list returns an element that the order
places no later than any other element satisfying the predicate. -/
theorem find?_first_pairwise {α : Type} (P : α → α → Prop)
    (pred : α → Bool) (l : List α) (hp : l.Pairwise P) (q : α)
    (hq : l.find? pred = some q) :
    ∀ r ∈ l, pred r → r = q ∨ P q r := by
  induction l with
  | nil => simp at hq
  | cons a rest ih =>
    obtain ⟨hhead, htail⟩ := List.pairwise_cons.mp hp
    intro r hr hpr
    rcases hpa : pred a with _ | _
    · rw [List.find?_cons_of_neg _ (by simp [hpa])] at hq
      rcases List.mem_cons.mp hr with rfl | hr'
      · rw [hpr] at hpa
        exact Bool.noConfusion hpa
      · exact ih htail hq r hr' hpr
    · rw [List.find?_cons_of_pos _ hpa] at hq
      rcases List.mem_cons.mp hr with rfl | hr'
      · exact Or.inl (Option.some_inj.mp hq)
      · rw [← Option.some_inj.mp hq]
        exact Or.inr (hhead r hr')

/-- `Counter(cands).most_common(1)[0][0]` is the first-occurrence mode:
it is a member of the list, its count is maximal, and among the values of
maximal count it occurs first. -/
theorem mostCommon1_spec (cands : List Str) (hne : cands ≠ []) :
    mostCommon1 (counterOf cands) ∈ cands ∧
    (∀ x ∈ cands,
      cands.count x ≤ cands.count (mostCommon1 (counterOf cands))) ∧
    (∀ x ∈ cands,
      cands.count x = cands.count (mostCommon1 (counterOf cands)) →
      firstIdx cands (mostCommon1 (counterOf cands)) ≤ firstIdx cands x) := by
  obtain ⟨hget, hord⟩ := counterOf_spec cands
  have hkeysne : ∀ q ∈ counterOf cands,
      q.2 = cands.count q.1 ∧ q.1 ∈ cands := by
    intro q hq
    have h1 : q.1 ∈ cands := by
      have hk : q.1 ∈ (counterOf cands).map (·.1) :=
        List.mem_map_of_mem (·.1) hq
      rw [← alistGet_isSome_iff_mem_keys] at hk
      by_contra hnc
      rw [hget q.1, if_neg hnc] at hk
      simp at hk
    have hnd : ((counterOf cands).map (·.1)).Pairwise (· ≠ ·) :=
      hord.imp (fun {a b} h => fun hc => by subst hc; exact lt_irrefl _ h)
    have h2 := alistGet_of_mem_of_nodup_keys _ _ _ hnd hq
    rw [hget q.1, if_pos h1] at h2
    exact ⟨(Option.some_inj.mp h2).symm, h1⟩
  have hmne : counterOf cands ≠ [] := by
    intro hnil
    obtain ⟨c, cs, hc⟩ := List.exists_cons_of_ne_nil hne
    have h := hget c
    rw [if_pos (by rw [hc]; exact List.mem_cons_self _ _), hnil] at h
    simp [alistGet] at h
  have hfind : ((counterOf cands).find? (fun p =>
      p.2 = (counterOf cands).foldl (fun acc q => max acc q.2) 0)).isSome := by
    rw [List.find?_isSome]
    rcases foldl_max_attained (counterOf cands) 0 with h | ⟨p, hp, h⟩
    · exfalso
      obtain ⟨q0, m', hq0⟩ := List.exists_cons_of_ne_nil hmne
      have hmem : q0 ∈ counterOf cands := by
        rw [hq0]; exact List.mem_cons_self _ _
      have h1 := foldl_max_ge (counterOf cands) 0 q0 hmem
      have h2 := (hkeysne q0 hmem).1
      have h3 : 0 < cands.count q0.1 :=
        List.count_pos_iff.mpr (hkeysne q0 hmem).2
      omega
    · exact ⟨p, hp, by simp [h]⟩
  obtain ⟨q, hq⟩ := Option.isSome_iff_exists.mp hfind
  have htop : mostCommon1 (counterOf cands) = q.1 := by
    unfold mostCommon1
    rw [hq]
  have hqmem : q ∈ counterOf cands := List.mem_of_find?_eq_some hq
  have hqpred : q.2 = (counterOf cands).foldl (fun acc q => max acc q.2) 0 := by
    simpa using List.find?_some hq
  obtain ⟨hqcount, hqmemc⟩ := hkeysne q hqmem
  rw [htop]
  refine ⟨hqmemc, ?_, ?_⟩
  · intro x hx
    have hxget := hget x
    rw [if_pos hx] at hxget
    have hxm : (x, cands.count x) ∈ counterOf cands :=
      mem_of_alistGet_eq_some _ _ _ hxget
    have hle := foldl_max_ge (counterOf cands) 0 _ hxm
    simp only [] at hle
    omega
  · intro x hx hcx
    have hxget := hget x
    rw [if_pos hx] at hxget
    have hxm : (x, cands.count x) ∈ counterOf cands :=
      mem_of_alistGet_eq_some _ _ _ hxget
    have hordP : (counterOf cands).Pairwise
        (fun a b => firstIdx cands a.1 < firstIdx cands b.1) := by
      rw [List.pairwise_map] at hord
      exact hord
    have hxM : cands.count x
        = (counterOf cands).foldl (fun acc q => max acc q.2) 0 := by
      rw [hcx, ← hqcount, hqpred]
    have hfirst := find?_first_pairwise _
      (fun p => p.2 = (counterOf cands).foldl (fun acc q => max acc q.2) 0)
      (counterOf cands) hordP q hq (x, cands.count x) hxm (by simp [hxM])
    rcases hfirst with h | h
    · have hx2 : x = q.1 := congrArg Prod.fst h
      rw [← hx2]
    · exact le_of_lt h

/-- C5: `_choose_display_form` picks the most frequent exact preprocessed
raw value of the group, with frequency ties broken by first occurrence in
input order, and the chosen string is title-cased exactly when it contains
no ASCII capital letter, otherwise kept verbatim. -/
theorem c5_display_form_mode_and_casing (cands : List Str)
    (hne : cands ≠ []) :
    mostCommon1 (counterOf cands) ∈ cands ∧
    (∀ x ∈ cands,
      cands.count x ≤ cands.count (mostCommon1 (counterOf cands))) ∧
    (∀ x ∈ cands,
      cands.count x = cands.count (mostCommon1 (counterOf cands)) →
      firstIdx cands (mostCommon1 (counterOf cands)) ≤ firstIdx cands x) ∧
    _choose_display_form cands =
      (if hasUpperAscii (mostCommon1 (counterOf cands)) then
        mostCommon1 (counterOf cands)
      else pyTitle (mostCommon1 (counterOf cands))) := by
  obtain ⟨h1, h2, h3⟩ := mostCommon1_spec cands hne
  exact ⟨h1, h2, h3, rfl⟩

/-- Witness for C5 at the group `["nyc", "NYC", "nyc"]` (mode "nyc" with
count 2, title-cased to "Nyc" since it has no capital). -/
theorem c5_display_form_mode_and_casing_witness :
    mostCommon1 (counterOf [str "nyc", str "NYC", str "nyc"])
      ∈ [str "nyc", str "NYC", str "nyc"] ∧
    (∀ x ∈ [str "nyc", str "NYC", str "nyc"],
      List.count x [str "nyc", str "NYC", str "nyc"]
        ≤ List.count (mostCommon1 (counterOf [str "nyc", str "NYC", str "nyc"]))
            [str "nyc", str "NYC", str "nyc"]) ∧
    (∀ x ∈ [str "nyc", str "NYC", str "nyc"],
      List.count x [str "nyc", str "NYC", str "nyc"]
        = List.count (mostCommon1 (counterOf [str "nyc", str "NYC", str "nyc"]))
            [str "nyc", str "NYC", str "nyc"] →
      firstIdx [str "nyc", str "NYC", str "nyc"]
          (mostCommon1 (counterOf [str "nyc", str "NYC", str "nyc"]))
        ≤ firstIdx [str "nyc", str "NYC", str "nyc"] x) ∧
    _choose_display_form [str "nyc", str "NYC", str "nyc"] =
      (if hasUpperAscii (mostCommon1 (counterOf [str "nyc", str "NYC", str "nyc"])) then
        mostCommon1 (counterOf [str "nyc", str "NYC", str "nyc"])
      else pyTitle (mostCommon1 (counterOf [str "nyc", str "NYC", str "nyc"]))) :=
  c5_display_form_mode_and_casing [str "nyc", str "NYC", str "nyc"]
    (by decide)

/-! ## C4 machinery: the tie-breaks of `build_city_canon` follow explicit
total orders -/

theorem strLtPy_asymm (x y : Str) (h : strLtPy x y = true) :
    strLtPy y x = false := by
  induction x generalizing y with
  | nil =>
    cases y with
    | nil => simp [strLtPy] at h
    | cons d ds => simp [strLtPy]
  | cons c cs ih =>
    cases y with
    | nil => simp [strLtPy] at h
    | cons d ds =>
      simp only [strLtPy] at h ⊢
      rcases Nat.lt_trichotomy c.val.toNat d.val.toNat with h1 | h1 | h1
      · rw [if_neg (by omega), if_pos h1]
      · rw [if_neg (by omega), if_neg (by omega)] at h ⊢
        exact ih ds h
      · rw [if_neg (by omega), if_pos h1] at h
        exact Bool.noConfusion h

theorem strLtPy_trans (x y z : Str) (h1 : strLtPy x y = true)
    (h2 : strLtPy y z = true) : strLtPy x z = true := by
  induction x generalizing y z with
  | nil =>
    cases z with
    | nil =>
      cases y with
      | nil => simp [strLtPy] at h1
      | cons d ds => simp [strLtPy] at h2
    | cons e es => simp [strLtPy]
  | cons c cs ih =>
    cases y with
    | nil => simp [strLtPy] at h1
    | cons d ds =>
      cases z with
      | nil => simp [strLtPy] at h2
      | cons e es =>
        simp only [strLtPy] at h1 h2 ⊢
        rcases Nat.lt_trichotomy c.val.toNat d.val.toNat with hcd | hcd | hcd
        · rcases Nat.lt_trichotomy d.val.toNat e.val.toNat with hde | hde | hde
          · rw [if_pos (by omega)]
          · rw [if_pos (by omega)]
          · rw [if_neg (by omega), if_pos hde] at h2
            exact Bool.noConfusion h2
        · rw [if_neg (by omega), if_neg (by omega)] at h1
          rcases Nat.lt_trichotomy d.val.toNat e.val.toNat with hde | hde | hde
          · rw [if_pos (by omega)]
          · rw [if_neg (by omega), if_neg (by omega)] at h2 ⊢
            exact ih ds es h1 h2
          · rw [if_neg (by omega), if_pos hde] at h2
            exact Bool.noConfusion h2
        · rw [if_neg (by omega), if_pos hcd] at h1
          exact Bool.noConfusion h1

theorem strLtPy_conn (x y : Str) (h1 : strLtPy x y = false)
    (h2 : strLtPy y x = false) : x = y := by
  induction x generalizing y with
  | nil =>
    cases y with
    | nil => rfl
    | cons d ds => simp [strLtPy] at h1
  | cons c cs ih =>
    cases y with
    | nil => simp [strLtPy] at h2
    | cons d ds =>
      rcases Nat.lt_trichotomy c.val.toNat d.val.toNat with hcd | hcd | hcd
      · rw [show strLtPy (c :: cs) (d :: ds) = true from by
          simp [strLtPy, hcd]] at h1
        exact Bool.noConfusion h1
      · have hc : c = d := Char.eq_of_val_eq (UInt32.toNat.inj hcd)
        have h1' : strLtPy cs ds = false := by
          rw [show strLtPy (c :: cs) (d :: ds) = strLtPy cs ds from by
            simp [strLtPy, hcd]] at h1
          exact h1
        have h2' : strLtPy ds cs = false := by
          rw [show strLtPy (d :: ds) (c :: cs) = strLtPy ds cs from by
            simp [strLtPy, hcd]] at h2
          exact h2
        rw [hc, ih ds h1' h2']
      · rw [show strLtPy (d :: ds) (c :: cs) = true from by
          simp [strLtPy, hcd]] at h2
        exact Bool.noConfusion h2

/-- A score pair has a positive denominator (true of every `ratioFrac`). -/
def posDen (p : (Nat × Nat) × Str) : Prop := 0 < p.1.2

theorem ratioFrac_den_pos (a b : Str) : 0 < (ratioFrac a b).2 := by
  unfold ratioFrac
  by_cases h : a.length + b.length = 0 <;> simp [h]
  omega

theorem scorePairLt_asymm (p q : (Nat × Nat) × Str)
    (h : scorePairLt p q = true) : scorePairLt q p = false := by
  simp only [scorePairLt, Bool.or_eq_true, Bool.and_eq_true,
    decide_eq_true_eq] at h
  simp only [scorePairLt, Bool.or_eq_false_iff, Bool.and_eq_false_iff]
  rcases h with h | ⟨h1, h2⟩
  · constructor
    · simp only [decide_eq_false_iff_not]
      omega
    · left
      simp only [decide_eq_false_iff_not]
      omega
  · constructor
    · simp only [decide_eq_false_iff_not]
      omega
    · right
      exact strLtPy_asymm _ _ h2

theorem scorePairLt_trans (p q r : (Nat × Nat) × Str)
    (hp : posDen p) (hq : posDen q) (hr : posDen r)
    (h1 : scorePairLt p q = true) (h2 : scorePairLt q r = true) :
    scorePairLt p r = true := by
  unfold posDen at hp hq hr
  simp only [scorePairLt, Bool.or_eq_true, Bool.and_eq_true,
    decide_eq_true_eq] at h1 h2 ⊢
  rcases h1 with h1 | ⟨h1a, h1b⟩ <;> rcases h2 with h2 | ⟨h2a, h2b⟩
  · left
    have c1 : p.1.1 * q.1.2 * r.1.2 < q.1.1 * p.1.2 * r.1.2 :=
      (Nat.mul_lt_mul_right hr).mpr h1
    have c2 : q.1.1 * r.1.2 * p.1.2 < r.1.1 * q.1.2 * p.1.2 :=
      (Nat.mul_lt_mul_right hp).mpr h2
    have c3 : p.1.1 * r.1.2 * q.1.2 < r.1.1 * p.1.2 * q.1.2 := by
      calc p.1.1 * r.1.2 * q.1.2 = p.1.1 * q.1.2 * r.1.2 := by ring
        _ < q.1.1 * p.1.2 * r.1.2 := c1
        _ = q.1.1 * r.1.2 * p.1.2 := by ring
        _ < r.1.1 * q.1.2 * p.1.2 := c2
        _ = r.1.1 * p.1.2 * q.1.2 := by ring
    exact (Nat.mul_lt_mul_right hq).mp c3
  · left
    have c1 : p.1.1 * q.1.2 * r.1.2 < q.1.1 * p.1.2 * r.1.2 :=
      (Nat.mul_lt_mul_right hr).mpr h1
    have c3 : p.1.1 * r.1.2 * q.1.2 < r.1.1 * p.1.2 * q.1.2 := by
      calc p.1.1 * r.1.2 * q.1.2 = p.1.1 * q.1.2 * r.1.2 := by ring
        _ < q.1.1 * p.1.2 * r.1.2 := c1
        _ = q.1.1 * r.1.2 * p.1.2 := by ring
        _ = r.1.1 * q.1.2 * p.1.2 := by rw [h2a]
        _ = r.1.1 * p.1.2 * q.1.2 := by ring
    exact (Nat.mul_lt_mul_right hq).mp c3
  · left
    have c2 : q.1.1 * r.1.2 * p.1.2 < r.1.1 * q.1.2 * p.1.2 :=
      (Nat.mul_lt_mul_right hp).mpr h2
    have c3 : p.1.1 * r.1.2 * q.1.2 < r.1.1 * p.1.2 * q.1.2 := by
      calc p.1.1 * r.1.2 * q.1.2 = p.1.1 * q.1.2 * r.1.2 := by ring
        _ = q.1.1 * p.1.2 * r.1.2 := by rw [h1a]
        _ = q.1.1 * r.1.2 * p.1.2 := by ring
        _ < r.1.1 * q.1.2 * p.1.2 := c2
        _ = r.1.1 * p.1.2 * q.1.2 := by ring
    exact (Nat.mul_lt_mul_right hq).mp c3
  · right
    constructor
    · have c3 : p.1.1 * r.1.2 * q.1.2 = r.1.1 * p.1.2 * q.1.2 := by
        calc p.1.1 * r.1.2 * q.1.2 = p.1.1 * q.1.2 * r.1.2 := by ring
          _ = q.1.1 * p.1.2 * r.1.2 := by rw [h1a]
          _ = q.1.1 * r.1.2 * p.1.2 := by ring
          _ = r.1.1 * q.1.2 * p.1.2 := by rw [h2a]
          _ = r.1.1 * p.1.2 * q.1.2 := by ring
      exact Nat.eq_of_mul_eq_mul_right hq c3
    · exact strLtPy_trans _ _ _ h1b h2b

theorem scorePairLt_subst (p q r : (Nat × Nat) × Str)
    (hp : posDen p) (hq : posDen q)
    (h1 : scorePairLt p q = false) (h2 : scorePairLt q p = false) :
    scorePairLt q r = scorePairLt p r := by
  unfold posDen at hp hq
  simp only [scorePairLt, Bool.or_eq_false_iff, Bool.and_eq_false_iff,
    decide_eq_false_iff_not] at h1 h2
  obtain ⟨h1a, h1b⟩ := h1
  obtain ⟨h2a, h2b⟩ := h2
  have hcross : p.1.1 * q.1.2 = q.1.1 * p.1.2 := by omega
  have hstr : p.2 = q.2 := by
    rcases h1b with h1b | h1b
    · omega
    · rcases h2b with h2b | h2b
      · omega
      · exact strLtPy_conn _ _ h1b h2b
  simp only [scorePairLt, hstr]
  have hlt : (q.1.1 * r.1.2 < r.1.1 * q.1.2)
      ↔ (p.1.1 * r.1.2 < r.1.1 * p.1.2) := by
    constructor
    · intro h
      have c2 : p.1.1 * r.1.2 * q.1.2 < r.1.1 * p.1.2 * q.1.2 := by
        calc p.1.1 * r.1.2 * q.1.2 = p.1.1 * q.1.2 * r.1.2 := by ring
          _ = q.1.1 * p.1.2 * r.1.2 := by rw [hcross]
          _ = q.1.1 * r.1.2 * p.1.2 := by ring
          _ < r.1.1 * q.1.2 * p.1.2 := (Nat.mul_lt_mul_right hp).mpr h
          _ = r.1.1 * p.1.2 * q.1.2 := by ring
      exact (Nat.mul_lt_mul_right hq).mp c2
    · intro h
      have c2 : q.1.1 * r.1.2 * p.1.2 < r.1.1 * q.1.2 * p.1.2 := by
        calc q.1.1 * r.1.2 * p.1.2 = q.1.1 * p.1.2 * r.1.2 := by ring
          _ = p.1.1 * q.1.2 * r.1.2 := by rw [hcross]
          _ = p.1.1 * r.1.2 * q.1.2 := by ring
          _ < r.1.1 * p.1.2 * q.1.2 := (Nat.mul_lt_mul_right hq).mpr h
          _ = r.1.1 * q.1.2 * p.1.2 := by ring
      exact (Nat.mul_lt_mul_right hp).mp c2
  have heq : (q.1.1 * r.1.2 = r.1.1 * q.1.2)
      ↔ (p.1.1 * r.1.2 = r.1.1 * p.1.2) := by
    constructor
    · intro h
      have c2 : p.1.1 * r.1.2 * q.1.2 = r.1.1 * p.1.2 * q.1.2 := by
        calc p.1.1 * r.1.2 * q.1.2 = p.1.1 * q.1.2 * r.1.2 := by ring
          _ = q.1.1 * p.1.2 * r.1.2 := by rw [hcross]
          _ = q.1.1 * r.1.2 * p.1.2 := by ring
          _ = r.1.1 * q.1.2 * p.1.2 := by rw [h]
          _ = r.1.1 * p.1.2 * q.1.2 := by ring
      exact Nat.eq_of_mul_eq_mul_right hq c2
    · intro h
      have c2 : q.1.1 * r.1.2 * p.1.2 = r.1.1 * q.1.2 * p.1.2 := by
        calc q.1.1 * r.1.2 * p.1.2 = q.1.1 * p.1.2 * r.1.2 := by ring
          _ = p.1.1 * q.1.2 * r.1.2 := by rw [hcross.symm]
          _ = p.1.1 * r.1.2 * q.1.2 := by ring
          _ = r.1.1 * p.1.2 * q.1.2 := by rw [h]
          _ = r.1.1 * q.1.2 * p.1.2 := by ring
      exact Nat.eq_of_mul_eq_mul_right hp c2
  by_cases hq1 : q.1.1 * r.1.2 < r.1.1 * q.1.2
  · simp [hq1, hlt.mp hq1]
  · have hp1 : ¬(p.1.1 * r.1.2 < r.1.1 * p.1.2) := fun hc => hq1 (hlt.mpr hc)
    by_cases hq2 : q.1.1 * r.1.2 = r.1.1 * q.1.2
    · simp [hq1, hp1, hq2, heq.mp hq2]
    · have hp2 : ¬(p.1.1 * r.1.2 = r.1.1 * p.1.2) := fun hc => hq2 (heq.mpr hc)
      simp [hq1, hp1, hq2, hp2]

theorem find?_congr_on {α : Type} (p q : α → Bool) (l : List α)
    (h : ∀ y ∈ l, p y = q y) : l.find? p = l.find? q := by
  induction l with
  | nil => rfl
  | cons a rest ih =>
    have ha := h a (List.mem_cons_self a rest)
    rcases hpa : p a with _ | _
    · rw [List.find?_cons_of_neg _ (by simp [hpa]),
        List.find?_cons_of_neg _ (by simp [← ha, hpa])]
      exact ih (fun y hy => h y (List.mem_cons_of_mem a hy))
    · rw [List.find?_cons_of_pos _ hpa,
        List.find?_cons_of_pos _ (by rw [← ha]; exact hpa)]

theorem bestFold_stable {α : Type} (lt : α → α → Bool) (b : α) (l : List α)
    (h : ∀ z ∈ l, lt b z = false) :
    l.foldl (fun best rx =>
      match best with
      | none => some rx
      | some b => if lt b rx then some rx else some b) (some b) = some b := by
  induction l with
  | nil => rfl
  | cons y rest ih =>
    simp only [List.foldl]
    rw [if_neg (by simp [h y (List.mem_cons_self y rest)])]
    exact ih (fun z hz => h z (List.mem_cons_of_mem y hz))

theorem bestFold_dominated {α : Type} (lt : α → α → Bool) (P : α → Prop)
    (_hasym : ∀ p q, P p → P q → lt p q = true → lt q p = false)
    (htrans : ∀ p q r, P p → P q → P r →
      lt p q = true → lt q r = true → lt p r = true)
    (hsubst : ∀ p q r, P p → P q → P r →
      lt p q = false → lt q p = false → lt q r = lt p r)
    (l : List α) :
    ∀ b, P b → (∀ x ∈ l, P x) → (∃ z ∈ l, lt b z = true) →
    l.foldl (fun best rx =>
      match best with
      | none => some rx
      | some b => if lt b rx then some rx else some b) (some b)
    = l.foldl (fun best rx =>
      match best with
      | none => some rx
      | some b => if lt b rx then some rx else some b) none := by
  induction l with
  | nil =>
    rintro b _ _ ⟨z, hz, _⟩
    exact absurd hz (List.not_mem_nil z)
  | cons y rest ih =>
    rintro b hPb hPl ⟨z, hz, hbz⟩
    have hPy : P y := hPl y (List.mem_cons_self y rest)
    have hPrest : ∀ x ∈ rest, P x := fun x hx => hPl x (List.mem_cons_of_mem y hx)
    simp only [List.foldl]
    by_cases hby : lt b y = true
    · rw [if_pos hby]
    · rw [if_neg hby]
      have hbyf : lt b y = false := Bool.eq_false_iff.mpr hby
      have hzrest : z ∈ rest := by
        rcases List.mem_cons.mp hz with rfl | h'
        · rw [hbz] at hbyf
          exact Bool.noConfusion hbyf
        · exact h'
      have hPz : P z := hPrest z hzrest
      have hyz : lt y z = true := by
        by_cases hyb : lt y b = true
        · exact htrans y b z hPy hPb hPz hyb hbz
        · have hybf : lt y b = false := Bool.eq_false_iff.mpr hyb
          rw [hsubst b y z hPb hPy hPz hbyf hybf]
          exact hbz
      rw [ih b hPb hPrest ⟨z, hzrest, hbz⟩,
        ih y hPy hPrest ⟨z, hzrest, hyz⟩]

/-- The running-maximum fold and the explicit first-nondominated selection
agree on any list of elements over which `lt` is a strict weak order. -/
theorem bestFold_eq_specPick {α : Type} (lt : α → α → Bool) (P : α → Prop)
    (hasym : ∀ p q, P p → P q → lt p q = true → lt q p = false)
    (htrans : ∀ p q r, P p → P q → P r →
      lt p q = true → lt q r = true → lt p r = true)
    (hsubst : ∀ p q r, P p → P q → P r →
      lt p q = false → lt q p = false → lt q r = lt p r)
    (l : List α) (hPl : ∀ x ∈ l, P x) :
    bestFold lt l = specPick lt l := by
  induction l with
  | nil => rfl
  | cons x rest ih =>
    have hPx : P x := hPl x (List.mem_cons_self x rest)
    have hPrest : ∀ z ∈ rest, P z := fun z hz => hPl z (List.mem_cons_of_mem x hz)
    by_cases hx : (x :: rest).all (fun y => !(lt x y)) = true
    · have hxall : ∀ z ∈ x :: rest, lt x z = false := by
        intro z hz
        have := List.all_eq_true.mp hx z hz
        simpa using this
      unfold bestFold specPick
      simp only [List.foldl]
      rw [bestFold_stable lt x rest
        (fun z hz => hxall z (List.mem_cons_of_mem x hz))]
      have hfs : List.find? (fun y => (x :: rest).all (fun w => !(lt y w)))
          (x :: rest) = some x := List.find?_cons_of_pos _ hx
      rw [hfs]
    · have hex : ∃ z ∈ x :: rest, lt x z = true := by
        by_contra hc
        push_neg at hc
        apply hx
        rw [List.all_eq_true]
        intro z hz
        have := hc z hz
        simp [Bool.eq_false_iff.mpr this]
      obtain ⟨z, hz, hxz⟩ := hex
      have hzrest : z ∈ rest := by
        rcases List.mem_cons.mp hz with rfl | h'
        · rw [hasym z z hPx hPx hxz] at hxz
          exact Bool.noConfusion hxz
        · exact h'
      have hPz : P z := hPrest z hzrest
      unfold bestFold specPick
      simp only [List.foldl]
      rw [bestFold_dominated lt P hasym htrans hsubst rest x hPx hPrest
        ⟨z, hzrest, hxz⟩]
      have hfs : List.find? (fun y => (x :: rest).all (fun w => !(lt y w)))
          (x :: rest)
          = List.find? (fun y => (x :: rest).all (fun w => !(lt y w))) rest :=
        List.find?_cons_of_neg _ hx
      rw [hfs]
      have hcongr : ∀ y ∈ rest,
          ((x :: rest).all (fun w => !(lt y w)))
            = (rest.all (fun w => !(lt y w))) := by
        intro y hy
        have hPy : P y := hPrest y hy
        rcases hall : rest.all (fun w => !(lt y w)) with _ | _
        · simp only [List.all_cons, hall, Bool.and_false]
        · have hyx : lt y x = false := by
            by_contra hc
            have hyx' : lt y x = true := by
              rcases hv : lt y x with _ | _
              · exact absurd hv hc
              · rfl
            have hyz : lt y z = true := htrans y x z hPy hPx hPz hyx' hxz
            have := List.all_eq_true.mp hall z hzrest
            rw [hyz] at this
            exact Bool.noConfusion this
          simp only [List.all_cons, hall, hyx, Bool.not_false, Bool.true_and]
      rw [find?_congr_on _ _ rest hcongr]
      show bestFold lt rest = specPick lt rest
      exact ih hPrest

/-! ## The spec-side pipeline: every tie-break via an explicit total order
(refinement definitions for C4, following the specification's words) -/

/-- Spec-side merge-candidate selection: among the candidates passing the
cutoff, the explicitly first one that no other candidate strictly beats in
the total `(similarity, code-point-lexicographic)` order. -/
def getCloseMatch1Spec (word : Str) (poss : List Str) (cutN cutD : Nat) :
    Option Str :=
  (specPick scorePairLt (poss.filterMap (fun x =>
    if ratioGeCut cutN cutD (ratioFrac x word) then
      some (ratioFrac x word, x)
    else none))).map (·.2)

theorem getCloseMatch1Spec_eq (word : Str) (poss : List Str)
    (cutN cutD : Nat) :
    getCloseMatch1Spec word poss cutN cutD
      = getCloseMatch1 word poss cutN cutD := by
  unfold getCloseMatch1Spec getCloseMatch1
  rw [bestFold_eq_specPick scorePairLt posDen
    (fun p q _ _ h => scorePairLt_asymm p q h)
    (fun p q r hp hq hr h1 h2 => scorePairLt_trans p q r hp hq hr h1 h2)
    (fun p q r hp hq _ h1 h2 => scorePairLt_subst p q r hp hq h1 h2)
    _ ?_]
  intro x hx
  rw [List.mem_filterMap] at hx
  obtain ⟨y, _, hy⟩ := hx
  by_cases hcut : ratioGeCut cutN cutD (ratioFrac y word)
  · rw [if_pos hcut] at hy
    rw [← Option.some_inj.mp hy]
    exact ratioFrac_den_pos y word
  · rw [if_neg hcut] at hy
    exact Option.noConfusion hy

/-- Spec-side cluster ordering: explicitly sort by the total key
(cluster size descending, first-signature-seen position ascending). -/
def lexInsert (x : Nat × (Str × Nat)) :
    List (Nat × (Str × Nat)) → List (Nat × (Str × Nat))
  | [] => [x]
  | y :: ys =>
    if x.2.2 < y.2.2 || (x.2.2 = y.2.2 && y.1 < x.1) then y :: lexInsert x ys
    else x :: y :: ys

def cityOrderedSpec (col : List Str) : List Str :=
  (((citySizes col).enum).foldl (fun acc x => lexInsert x acc) []).map
    (·.2.1)

theorem mem_lexInsert (x : Nat × (Str × Nat))
    (acc : List (Nat × (Str × Nat))) (y : Nat × (Str × Nat))
    (h : y ∈ lexInsert x acc) : y = x ∨ y ∈ acc := by
  induction acc with
  | nil =>
    simp [lexInsert] at h
    exact Or.inl h
  | cons z zs ih =>
    simp only [lexInsert] at h
    by_cases hc : x.2.2 < z.2.2 || (x.2.2 = z.2.2 && z.1 < x.1)
    · rw [if_pos hc] at h
      rcases List.mem_cons.mp h with rfl | h'
      · exact Or.inr (List.mem_cons_self _ _)
      · rcases ih h' with h'' | h''
        · exact Or.inl h''
        · exact Or.inr (List.mem_cons_of_mem _ h'')
    · rw [if_neg hc] at h
      rcases List.mem_cons.mp h with rfl | h'
      · exact Or.inl rfl
      · exact Or.inr h'

theorem lexInsert_eq (x : Str × Nat) (n : Nat)
    (acc : List (Nat × (Str × Nat))) (h : ∀ y ∈ acc, y.1 < n) :
    (lexInsert (n, x) acc).map (·.2) = insertDesc x (acc.map (·.2)) := by
  induction acc with
  | nil => simp [lexInsert, insertDesc]
  | cons y ys ih =>
    have hy : y.1 < n := h y (List.mem_cons_self y ys)
    simp only [lexInsert, insertDesc]
    by_cases hc : x.2 ≤ y.2.2
    · rw [if_pos (by
        simp only [Bool.or_eq_true, Bool.and_eq_true, decide_eq_true_eq]
        omega), if_pos hc]
      simp only [List.map_cons]
      rw [ih (fun z hz => h z (List.mem_cons_of_mem y hz))]
    · rw [if_neg (by
        simp only [Bool.or_eq_true, Bool.and_eq_true, decide_eq_true_eq]
        omega), if_neg hc]
      simp

theorem lexSort_eq (l : List (Str × Nat)) :
    ∀ (k : Nat) (acc : List (Nat × (Str × Nat))), (∀ y ∈ acc, y.1 < k) →
    ((l.enumFrom k).foldl (fun a x => lexInsert x a) acc).map (·.2)
      = l.foldl (fun a x => insertDesc x a) (acc.map (·.2)) := by
  induction l with
  | nil =>
    intro k acc _
    rfl
  | cons x xs ih =>
    intro k acc hacc
    show ((xs.enumFrom (k + 1)).foldl (fun a x => lexInsert x a)
        (lexInsert (k, x) acc)).map (·.2)
      = xs.foldl (fun a x => insertDesc x a) (insertDesc x (acc.map (·.2)))
    rw [← lexInsert_eq x k acc hacc]
    apply ih
    intro y hy
    rcases mem_lexInsert _ _ _ hy with rfl | h'
    · exact Nat.lt_succ_self k
    · exact Nat.lt_succ_of_lt (hacc y h')

theorem cityOrderedSpec_eq (col : List Str) :
    cityOrderedSpec col = cityOrdered col := by
  unfold cityOrderedSpec cityOrdered stableSortDesc
  have h := lexSort_eq (citySizes col) 0 [] (by simp)
  rw [show (citySizes col).enum = (citySizes col).enumFrom 0 from rfl]
  rw [show (fun (p : Nat × (Str × Nat)) => p.2.1)
    = (fun (q : Str × Nat) => q.1) ∘ (fun (p : Nat × (Str × Nat)) => p.2)
    from rfl]
  rw [← List.map_map, h]
  rfl

/-- Spec-side representative selection: explicitly the first value in the
group whose occurrence count no other value exceeds. -/
def modeSpec (cands : List Str) : Str :=
  match cands.find? (fun x =>
    cands.all (fun y => cands.count y ≤ cands.count x)) with
  | some x => x
  | none => []

def _choose_display_form_spec (cands : List Str) : Str :=
  if hasUpperAscii (modeSpec cands) then modeSpec cands
  else pyTitle (modeSpec cands)

/-- `find?` returns the element whose first occurrence is earliest among
those satisfying the predicate, provided that element satisfies it. -/
theorem find?_eq_of_min_firstIdx (pred : Str → Bool) (l : List Str)
    (top : Str) (htop : top ∈ l) (hp : pred top = true)
    (hmin : ∀ w ∈ l, pred w = true → firstIdx l top ≤ firstIdx l w) :
    l.find? pred = some top := by
  induction l with
  | nil => exact absurd htop (List.not_mem_nil top)
  | cons a rest ih =>
    by_cases ha : a = top
    · subst ha
      exact List.find?_cons_of_pos _ hp
    · have hfa : firstIdx (a :: rest) top = firstIdx rest top + 1 := by
        simp only [firstIdx, if_neg ha]
      have hpa : pred a = false := by
        rcases hv : pred a with _ | _
        · rfl
        · have := hmin a (List.mem_cons_self a rest) hv
          rw [hfa] at this
          simp [firstIdx] at this
      rw [List.find?_cons_of_neg _ (by simp [hpa])]
      apply ih
      · rcases List.mem_cons.mp htop with rfl | h'
        · exact absurd rfl ha
        · exact h'
      · intro w hw hpw
        have hw2 := hmin w (List.mem_cons_of_mem a hw) hpw
        have haw : a ≠ w := by
          intro hc
          rw [← hc, hpa] at hpw
          exact Bool.noConfusion hpw
        rw [hfa, show firstIdx (a :: rest) w = firstIdx rest w + 1 from by
          simp only [firstIdx, if_neg haw]] at hw2
        omega

theorem modeSpec_eq (cands : List Str) :
    modeSpec cands = mostCommon1 (counterOf cands) := by
  cases hc : cands with
  | nil => rfl
  | cons a rest =>
    rw [← hc]
    have hne : cands ≠ [] := by rw [hc]; exact List.cons_ne_nil a rest
    obtain ⟨h1, h2, h3⟩ := mostCommon1_spec cands hne
    unfold modeSpec
    rw [find?_eq_of_min_firstIdx _ cands (mostCommon1 (counterOf cands)) h1
      (by
        rw [List.all_eq_true]
        intro y hy
        simpa using h2 y hy)
      (by
        intro w hw hpw
        rw [List.all_eq_true] at hpw
        have hcw : cands.count (mostCommon1 (counterOf cands))
            ≤ cands.count w := by simpa using hpw _ h1
        exact h3 w hw (Nat.le_antisymm (h2 w hw) hcw))]

theorem choose_display_form_spec_eq (cands : List Str) :
    _choose_display_form_spec cands = _choose_display_form cands := by
  unfold _choose_display_form_spec _choose_display_form
  rw [modeSpec_eq]

/-- Spec-side assembly of the canonicalisation engine. -/
def cityMergedSpec (col : List Str) (cutN cutD : Nat) : List (Str × Str) :=
  (cityOrderedSpec col).reverse.foldl (fun m small =>
    match getCloseMatch1Spec small ((cityOrderedSpec col).filter (fun s =>
        (alistGet (citySizes col) small).getD 0
          ≤ (alistGet (citySizes col) s).getD 0 && s ≠ small)) cutN cutD with
    | some b => m ++ [(small, b)]
    | none => m) []

def sigToDispSpec (col : List Str) : List (Str × Str) :=
  (cityGroups col).map (fun p => (p.1, _choose_display_form_spec p.2))

def cityFinalDispSpec (col : List Str) (cutN cutD : Nat) :
    List (Str × Str) :=
  (sigToDispSpec col).map (fun p =>
    (p.1, (alistGet (sigToDispSpec col)
            (cityRoot (cityMergedSpec col cutN cutD) p.1)).getD
          ((alistGet (sigToDispSpec col) p.1).getD [])))

def build_city_canon_spec (col : List Str) (cutN : Nat := 92)
    (cutD : Nat := 100) : List (Str × Str) :=
  (cityRows col).foldl (fun mp rbs =>
    if rbs.2.1 ≠ [] then
      alistSet mp rbs.1
        ((alistGet (cityFinalDispSpec col cutN cutD) rbs.2.2).getD rbs.1)
    else mp) []

def clean_city_spec (col : List Str) : List (Option Str) :=
  col.map (fun v =>
    if pyStrip (maybe_demojibake v) = [] then none
    else some ((alistGet (build_city_canon_spec col)
      (pyStrip (maybe_demojibake v))).getD (pyStrip (maybe_demojibake v))))

theorem cityMergedSpec_eq (col : List Str) (cutN cutD : Nat) :
    cityMergedSpec col cutN cutD = cityMerged col cutN cutD := by
  unfold cityMergedSpec cityMerged
  rw [cityOrderedSpec_eq]
  congr 1
  funext m small
  rw [getCloseMatch1Spec_eq]

theorem sigToDispSpec_eq (col : List Str) :
    sigToDispSpec col = sigToDisp col := by
  unfold sigToDispSpec sigToDisp
  congr 1
  funext p
  rw [choose_display_form_spec_eq]

theorem cityFinalDispSpec_eq (col : List Str) (cutN cutD : Nat) :
    cityFinalDispSpec col cutN cutD = cityFinalDisp col cutN cutD := by
  unfold cityFinalDispSpec cityFinalDisp
  rw [sigToDispSpec_eq, cityMergedSpec_eq]

theorem build_city_canon_spec_eq (col : List Str) (cutN cutD : Nat) :
    build_city_canon_spec col cutN cutD = build_city_canon col cutN cutD := by
  unfold build_city_canon_spec build_city_canon
  congr 1
  funext mp rbs
  rw [cityFinalDispSpec_eq]

/-- C4: the canonicalisation engine is deterministic.  The engine is a pure
function of the column, and its result coincides, for every column, with a
reference implementation in which each tie-break (cluster processing order,
representative mode ties, merge-candidate ties) is performed by an explicit
total order rather than by incidental container ordering. -/
theorem c4_deterministic_total_order_refinement (col : List Str) :
    build_city_canon_spec col = build_city_canon col ∧
    clean_city_spec col = clean_city col := by
  constructor
  · exact build_city_canon_spec_eq col 92 100
  · unfold clean_city_spec clean_city
    congr 1
    funext v
    rw [build_city_canon_spec_eq]

/-! ## Field normalizers: email (lines 84-105) -/

def isDigitChar (c : Char) : Bool := '0' ≤ c && c ≤ '9'

/-- Split at the first occurrence of `c` (`str.split(c, 1)`). -/
def splitAtFirst (c : Char) : Str → Option (Str × Str)
  | [] => none
  | d :: rest =>
    if d = c then some ([], rest)
    else (splitAtFirst c rest).map (fun p => (d :: p.1, p.2))

/-- Split on every character satisfying `p` (`str.split`-style, keeping
empty segments). -/
def splitOnP (p : Char → Bool) : Str → List Str
  | [] => [[]]
  | d :: rest =>
    if p d then [] :: splitOnP p rest
    else
      match splitOnP p rest with
      | seg :: segs => (d :: seg) :: segs
      | [] => [[d]]

def splitOn (c : Char) : Str → List Str := splitOnP (· = c)

mutual

/-- `re.sub(r"\s*@\s*", "@", t)`: delete the whitespace adjacent to each
`@`.  `pending` buffers a whitespace run whose fate (kept or deleted)
depends on whether an `@` follows it; `rwAfterAt` skips the whitespace
after an `@`. -/
def rwAux : Str → Str → Str
  | pending, [] => pending
  | pending, c :: rest =>
    if pyIsSpace c then rwAux (pending ++ [c]) rest
    else if c = '@' then '@' :: rwAfterAt rest
    else pending ++ c :: rwAux [] rest

def rwAfterAt : Str → Str
  | [] => []
  | c :: rest =>
    if pyIsSpace c then rwAfterAt rest
    else if c = '@' then '@' :: rwAfterAt rest
    else c :: rwAux [] rest

end

def removeWsAroundAt (s : Str) : Str := rwAux [] s

/-- Character class of the local part of `EMAIL_RE`
(`[A-Za-z0-9._%+\-]`). -/
def isLocalChar (c : Char) : Bool :=
  isAsciiLetter c || isDigitChar c || c = '.' || c = '_' || c = '%' ||
  c = '+' || c = '-'

/-- Character class of a domain label (`[A-Za-z0-9\-]`). -/
def isDomLabelChar (c : Char) : Bool :=
  isAsciiLetter c || isDigitChar c || c = '-'

/-- `EMAIL_RE.match(t)` (lines 86-92): no consecutive dots anywhere, a
nonempty local part, `@`, one or more dot-terminated labels, and a final
alphabetic TLD of length at least two.  Since `@` belongs to no character
class of the pattern and `.` belongs to no domain-label class, the split
at the first `@` and the split of the domain at every `.` are forced, so
the pattern is matched by checking each resulting segment. -/
def emailMatch (t : Str) : Bool :=
  !(hasSub ['.', '.'] t) &&
  (match splitAtFirst '@' t with
   | none => false
   | some (lcl, dom) =>
     !(lcl = []) && lcl.all isLocalChar && !(dom.any (· = '@')) &&
     (splitOn '.' dom).length ≥ 2 &&
     ((splitOn '.' dom).dropLast.all
       (fun lb => !(lb = []) && lb.all isDomLabelChar)) &&
     ((splitOn '.' dom).getLast?.getD []).length ≥ 2 &&
     ((splitOn '.' dom).getLast?.getD []).all isAsciiLetter)

/-- The extra rejection of lines 99-104: a local or domain part that
starts or ends with a dot. -/
def badDots (t : Str) : Bool :=
  match splitAtFirst '@' t with
  | none => false
  | some (lcl, dom) =>
    lcl.head? = some '.' || lcl.getLast? = some '.' ||
    dom.head? = some '.' || dom.getLast? = some '.'

/-- The normalisation of lines 96-98: demojibake, strip, delete the
whitespace around `@`, delete the remaining spaces, lower-case. -/
def emailNorm (s : Str) : Str :=
  pyLower ((removeWsAroundAt
    (pyStrip (maybe_demojibake s))).filter (· ≠ ' '))

/-- `clean_email` (lines 94-105) on one value. -/
def clean_email (s : Str) : Option Str :=
  if emailMatch (emailNorm s) && !(badDots (emailNorm s)) then
    some (emailNorm s) else none

/-! ## Field normalizers: phone (lines 107-147) -/

def COUNTRY_DIAL : List (Str × Str) :=
  [(str "Sweden", str "+46"), (str "Germany", str "+49"),
   (str "France", str "+33"), (str "Italy", str "+39"),
   (str "USA", str "+1"), (str "Japan", str "+81"),
   (str "Thailand", str "+66"), (str "Brazil", str "+55"),
   (str "Switzerland", str "+41"), (str "South Africa", str "+27")]

/-- The punctuation removed by `p.str.replace(r"\s|\(|\)|\-|\.|/", "")`. -/
def phonePunct (c : Char) : Bool :=
  pyIsSpace c || c = '(' || c = ')' || c = '-' || c = '.' || c = '/'

/-- `re.sub(r"^00", "+", p)`. -/
def leading00ToPlus (s : Str) : Str :=
  match s with
  | '0' :: '0' :: rest => '+' :: rest
  | s => s

/-- The per-value normalisation of the series `p` (lines 115-121): strip,
drop formatting punctuation, turn a leading `00` into `+`, drop everything
but digits and `+`, and if more than one `+` remains keep only the digits
after the last `+`, prefixed by a single `+`. -/
def phonePre (v : Str) : Str :=
  let d := (leading00ToPlus
    ((pyStrip (maybe_demojibake v)).filter
      (fun c => !(phonePunct c)))).filter
    (fun c => isDigitChar c || c = '+')
  if d.count '+' ≤ 1 then d
  else '+' :: ((splitOn '+' d).getLast?.getD []).filter isDigitChar

/-- `fmt` (lines 123-141) on one normalised value. -/
def fmtPhone (p : Str) (country : Str) : Option Str :=
  if p = [] then none
  else
    match alistGet COUNTRY_DIAL country with
    | some code =>
      if strStarts (code.dropWhile (· = '+')) (p.filter isDigitChar) then
        if (p.filter isDigitChar).drop (code.dropWhile (· = '+')).length
            = [] then none
        else some (str "(+" ++ code.dropWhile (· = '+') ++ str ") " ++
          (p.filter isDigitChar).drop (code.dropWhile (· = '+')).length)
      else
        if p.filter isDigitChar = [] then none
        else some (str "(+" ++ code.dropWhile (· = '+') ++ str ") " ++
          p.filter isDigitChar)
    | none =>
      if 2 ≤ (p.filter isDigitChar).length then
        some (str "(+" ++
          (p.filter isDigitChar).take
            (min 3 ((p.filter isDigitChar).length - 1)) ++ str ") " ++
          (p.filter isDigitChar).drop
            (min 3 ((p.filter isDigitChar).length - 1)))
      else some p

/-- `clean_phone` (lines 114-147) on one value: format, then reject unless
the digit count of the formatted string lies in `[7, 15]`. -/
def clean_phone (phone country : Str) : Option Str :=
  match fmtPhone (phonePre phone) country with
  | none => none
  | some r =>
    if 7 ≤ (r.filter isDigitChar).length ∧
        (r.filter isDigitChar).length ≤ 15 then some r
    else none

/-! ## Field normalizers: date (lines 149-162) -/

mutual

/-- `re.sub(r"\s+", " ", t)`: every whitespace run (of any length)
becomes a single space. -/
def collapseWsAll : Str → Str
  | [] => []
  | c :: rest =>
    if pyIsSpace c then ' ' :: skipWsAll rest
    else c :: collapseWsAll rest

def skipWsAll : Str → Str
  | [] => []
  | c :: rest =>
    if pyIsSpace c then skipWsAll rest
    else c :: collapseWsAll rest

end

/-- The preprocessing of `parse_one` (lines 153-154): demojibake, strip,
collapse whitespace, replace NBSP by a space. -/
def datePre (x : Str) : Str :=
  (collapseWsAll (pyStrip (maybe_demojibake x))).map
    (fun c => if c.val = 0xa0 then ' ' else c)

def digitsToNat (s : Str) : Nat :=
  s.foldl (fun n c => n * 10 + (c.val.toNat - 48)) 0

def isLeapYear (y : Nat) : Bool :=
  (y % 4 = 0 && y % 100 ≠ 0) || y % 400 = 0

def daysInMonth (y m : Nat) : Nat :=
  if m = 2 then (if isLeapYear y then 29 else 28)
  else if m = 4 || m = 6 || m = 9 || m = 11 then 30
  else 31

def validDMY (y m d : Nat) : Bool :=
  1 ≤ m && m ≤ 12 && 1 ≤ d && d ≤ daysInMonth y m

/-- Tokenise a purely numeric date string `n1 sep n2 sep n3` with
separators `/`, `-` or `.`, one- or two-digit day/month fields and a
four-digit year field. -/
def parseThreeNums (t : Str) : Option (Nat × Nat × Nat) :=
  match splitOnP (fun c => c = '/' || c = '-' || c = '.') t with
  | [a, b, c] =>
    if a ≠ [] && a.length ≤ 2 && a.all isDigitChar &&
       b ≠ [] && b.length ≤ 2 && b.all isDigitChar &&
       c.length = 4 && c.all isDigitChar then
      some (digitsToNat a, digitsToNat b, digitsToNat c)
    else none
  | _ => none

/-- Modelled from the library: `pd.to_datetime(t, errors="coerce",
dayfirst=b)` on the modelled subset of numeric `n1 sep n2 sep yyyy`
strings.  The underlying dateutil parser prefers the order requested by
`dayfirst` and swaps day and month when the preferred assignment is not a
valid calendar date (e.g. a month of 31); outside the modelled subset the
result is treated as unparseable (`NaT`).  Returns `(year, month, day)`. -/
def pdToDatetime (dayfirst : Bool) (t : Str) : Option (Nat × Nat × Nat) :=
  match parseThreeNums t with
  | none => none
  | some (a, b, y) =>
    if dayfirst then
      if validDMY y b a then some (y, b, a)
      else if validDMY y a b then some (y, a, b)
      else none
    else
      if validDMY y a b then some (y, a, b)
      else if validDMY y b a then some (y, b, a)
      else none

def digitChar (n : Nat) : Char := Char.ofNat (48 + n)

def natToStrAux : Nat → Nat → Str
  | 0, _ => []
  | fuel + 1, n =>
    if n < 10 then [digitChar n]
    else natToStrAux fuel (n / 10) ++ [digitChar (n % 10)]

def natToStr (n : Nat) : Str := natToStrAux (n + 1) n

def pad2 (n : Nat) : Str := if n < 10 then '0' :: natToStr n else natToStr n

def pad4 (n : Nat) : Str :=
  List.replicate (4 - (natToStr n).length) '0' ++ natToStr n

/-- `dt.strftime("%Y-%m-%d")`. -/
def fmtDate (ymd : Nat × Nat × Nat) : Str :=
  pad4 ymd.1 ++ '-' :: pad2 ymd.2.1 ++ '-' :: pad2 ymd.2.2

/-- `clean_date_iso` (lines 150-162) on one value: try `dayfirst=False`
first, then `dayfirst=True`; as soon as one parses, reject years more than
50 past `nowYear` (`datetime.now().year`), else format. -/
def clean_date_iso (nowYear : Nat) (x : Str) : Option Str :=
  match pdToDatetime false (datePre x) with
  | some ymd =>
    if ymd.1 > nowYear + 50 then none else some (fmtDate ymd)
  | none =>
    match pdToDatetime true (datePre x) with
    | some ymd =>
      if ymd.1 > nowYear + 50 then none else some (fmtDate ymd)
    | none => none

/-- The date normalizer as the claim words it: day-first tried before
month-first (the claim's priority order, for comparison with the code's
actual `(False, True)` order). -/
def clean_date_dayfirst_priority (nowYear : Nat) (x : Str) : Option Str :=
  match pdToDatetime true (datePre x) with
  | some ymd =>
    if ymd.1 > nowYear + 50 then none else some (fmtDate ymd)
  | none =>
    match pdToDatetime false (datePre x) with
    | some ymd =>
      if ymd.1 > nowYear + 50 then none else some (fmtDate ymd)
    | none => none

/-! ## Field normalizers: money (lines 164-214) -/

/-- `CUR_HINTS` (line 165); the euro key is the mojibake character triple
that appears literally in the source file (U+00E2, U+201A, U+00AC). -/
def CUR_HINTS : List (Str × Str) :=
  [(str "$", str "USD"), (['â', '‚', '¬'], str "EUR"),
   (str "usd", str "USD"), (str "eur", str "EUR"),
   (str "sek", str "SEK"), (str "kr", str "SEK")]

/-- `_detect_currency` (lines 166-171): first hint whose key occurs in the
lower-cased or the raw string. -/
def _detect_currency (raw : Str) : Option Str :=
  (CUR_HINTS.find? (fun kv =>
    hasSub kv.1 (pyLower raw) || hasSub kv.1 raw)).map (·.2)

/-- The alternatives of `(?i)(usd|eur|sek|kr|\$|â‚¬)`, in pattern order. -/
def curTokens : List Str :=
  [str "usd", str "eur", str "sek", str "kr", str "$", ['â', '‚', '¬']]

/-- `re.sub((?i)(usd|eur|sek|kr|\$|â‚¬), "", t)`: left-to-right scan, at
each position the first alternative matching case-insensitively is
deleted; the step count is bounded by the string length since every token
is nonempty. -/
def rmTokAux : Nat → Str → Str
  | 0, s => s
  | _ + 1, [] => []
  | fuel + 1, c :: rest =>
    match curTokens.find?
        (fun tok => strStarts (pyLower tok) (pyLower (c :: rest))) with
    | some tok => rmTokAux fuel ((c :: rest).drop tok.length)
    | none => c :: rmTokAux fuel rest

def removeCurrencyTokens (s : Str) : Str := rmTokAux s.length s

/-- The separator resolution of `_normalize_amount` (lines 178-189).
When both `,` and `.` occur, `t.rfind(",") > t.rfind(".")` holds exactly
when the right-most of the two separators is the comma, i.e. when the
first separator of the reversed string is a comma. -/
def sepResolve (t : Str) : Str :=
  if ',' ∈ t && '.' ∈ t then
    if t.reverse.find? (fun c => c = ',' || c = '.') = some ',' then
      (t.filter (· ≠ '.')).map (fun c => if c = ',' then '.' else c)
    else t.filter (· ≠ ',')
  else if ',' ∈ t && !('.' ∈ t) then
    if ((splitOn ',' t).getLast?.getD []).length = 2 ∨
       ((splitOn ',' t).getLast?.getD []).length = 3 then
      t.map (fun c => if c = ',' then '.' else c)
    else t.filter (· ≠ ',')
  else t

/-- `float(t)` on the digits-and-dots strings that reach it: defined when
`t` is nonempty, contains at most one dot and at least one digit.  The
value is returned exactly, as `(mantissa, k)` with value
`mantissa / 10^k`. -/
def parsePyFloat (t : Str) : Option (Nat × Nat) :=
  match splitOn '.' t with
  | [a] => if a ≠ [] && a.all isDigitChar then some (digitsToNat a, 0)
           else none
  | [a, b] =>
    if (a ≠ [] || b ≠ []) && a.all isDigitChar && b.all isDigitChar then
      some (digitsToNat (a ++ b), b.length)
    else none
  | _ => none

/-- `_normalize_amount` (lines 173-193): demojibake, NBSP to space,
delete currency tokens, delete `;` and spaces, keep only digits and the
two separators, resolve the separators, parse. -/
def _normalize_amount (raw : Str) : Option (Nat × Nat) :=
  parsePyFloat (sepResolve
    ((((removeCurrencyTokens
        ((maybe_demojibake raw).map
          (fun c => if c.val = 0xa0 then ' ' else c))).filter
      (fun c => c ≠ ';' && c ≠ ' ')).filter
      (fun c => isDigitChar c || c = ',' || c = '.'))))

/-- `,\d{2}` at this position. -/
def euComma : Str → Bool
  | ',' :: a :: b :: _ => isDigitChar a && isDigitChar b
  | _ => false

/-- One or more dot-separated three-digit groups followed by the comma
part, the leading dot already consumed: the `(\.\d{3})+,\d{2}` tail of
the first `looks_eu` pattern. -/
def euGroupsAux : Str → Bool
  | a :: b :: c :: rest =>
    isDigitChar a && isDigitChar b && isDigitChar c &&
    (euComma rest ||
     (match rest with
      | '.' :: r => euGroupsAux r
      | _ => false))
  | _ => false

def euGroups : Str → Bool
  | '.' :: r => euGroupsAux r
  | _ => false

/-- A match of `\d{1,3}(?:\.\d{3})+,\d{2}` starting at this position. -/
def eu1At (s : Str) : Bool :=
  match s with
  | c1 :: rest1 =>
    isDigitChar c1 &&
    (euGroups rest1 ||
     (match rest1 with
      | c2 :: rest2 =>
        isDigitChar c2 &&
        (euGroups rest2 ||
         (match rest2 with
          | c3 :: rest3 => isDigitChar c3 && euGroups rest3
          | [] => false))
      | [] => false))
  | [] => false

/-- `raw.str.contains(r"\d{1,3}(?:\.\d{3})+,\d{2}")`. -/
def looksEu1 : Str → Bool
  | [] => false
  | c :: rest => eu1At (c :: rest) || looksEu1 rest

/-- A match of `,\s*\d{2}\s*(â‚¬|eur)` (case-insensitive) starting at
this position. -/
def eu2At (s : Str) : Bool :=
  match s with
  | ',' :: rest =>
    match rest.dropWhile pyIsSpace with
    | a :: b :: r2 =>
      isDigitChar a && isDigitChar b &&
      (strStarts ['â', '‚', '¬'] (pyLower (r2.dropWhile pyIsSpace)) ||
       strStarts (str "eur") (pyLower (r2.dropWhile pyIsSpace)))
    | _ => false
  | _ => false

/-- `raw.str.contains(r",\s*\d{2}\s*(â‚¬|eur)", case=False)`. -/
def looksEu2 : Str → Bool
  | [] => false
  | c :: rest => eu2At (c :: rest) || looksEu2 rest

def looksEu (raw : Str) : Bool := looksEu1 raw || looksEu2 raw

/-- Round-half-even division `a / b` (the rounding used by CPython's
`f"{a:.2f}"`; modelled on the exact decimal value, which agrees with the
double formatting for every amount whose fractional part has at most two
digits — the inputs the theorems below use). -/
def roundHalfEvenDiv (a b : Nat) : Nat :=
  if 2 * (a % b) > b then a / b + 1
  else if 2 * (a % b) < b then a / b
  else if (a / b) % 2 = 0 then a / b else a / b + 1

/-- `f"{a:.2f}"` for the exact nonnegative value `m / 10^k`. -/
def formatAmount2dp (m k : Nat) : Str :=
  natToStr (roundHalfEvenDiv (m * 100) (10 ^ k) / 100) ++
  '.' :: pad2 (roundHalfEvenDiv (m * 100) (10 ^ k) % 100)

/-- `clean_total_spent` (lines 195-214) on one value: parse the amount,
detect the currency (explicit hint first, else the EUR patterns), format
to two decimals with the currency appended when known. -/
def clean_total_spent (s : Str) : Option Str :=
  match _normalize_amount s with
  | none => none
  | some mk =>
    match (match _detect_currency s with
           | some c => some c
           | none => if looksEu s then some (str "EUR") else none) with
    | some c => some (formatAmount2dp mk.1 mk.2 ++ ' ' :: c)
    | none => some (formatAmount2dp mk.1 mk.2)

/-! ## Generic list and string helper lemmas for the normalizer claims -/

theorem mem_of_strStarts (n t : Str) (c : Char) (h : strStarts n t = true)
    (hc : c ∈ n) : c ∈ t := by
  induction n generalizing t with
  | nil => cases hc
  | cons d n ih =>
    cases t with
    | nil => simp [strStarts] at h
    | cons e t =>
      simp only [strStarts, Bool.and_eq_true, decide_eq_true_eq] at h
      rcases List.mem_cons.mp hc with rfl | hc
      · rw [h.1]; exact List.mem_cons_self _ _
      · exact List.mem_cons_of_mem _ (ih t h.2 hc)

theorem mem_of_hasSub (n s : Str) (c : Char) (h : hasSub n s = true)
    (hc : c ∈ n) : c ∈ s := by
  induction s with
  | nil =>
    cases n with
    | nil => cases hc
    | cons d n => simp [hasSub, strStarts] at h
  | cons e s ih =>
    rw [hasSub, Bool.or_eq_true] at h
    rcases h with h1 | h1
    · exact mem_of_strStarts _ _ _ h1 hc
    · exact List.mem_cons_of_mem _ (ih h1)

/-- In this source file both mojibake markers contain a character above
U+00FF, so whenever a marker is present `encode("latin-1")` raises and the
`except` branch returns the input: `maybe_demojibake` is the identity. -/
theorem maybe_demojibake_id (s : Str) : maybe_demojibake s = s := by
  unfold maybe_demojibake
  by_cases h : (hasSub ['Ã', 'ƒ'] s || hasSub ['Ã', '‚'] s) = true
  · rw [if_pos h]
    rw [Bool.or_eq_true] at h
    have hbig : ∃ c ∈ s, ¬(c.val ≤ 0xff) := by
      rcases h with h1 | h1
      · exact ⟨'ƒ', mem_of_hasSub _ _ _ h1 (by decide), by decide⟩
      · exact ⟨'‚', mem_of_hasSub _ _ _ h1 (by decide), by decide⟩
    have hnone : latin1Bytes? s = none := by
      unfold latin1Bytes?
      rw [if_neg]
      intro hall
      rcases hbig with ⟨c, hc, hgt⟩
      exact hgt (of_decide_eq_true (List.all_eq_true.mp hall c hc))
    rw [hnone]
  · rw [if_neg h]

theorem map_id_of {α : Type} (f : α → α) (l : List α)
    (h : ∀ c ∈ l, f c = c) : l.map f = l := by
  induction l with
  | nil => rfl
  | cons c l ih =>
    rw [List.map_cons, h c (List.mem_cons_self c l),
      ih (fun x hx => h x (List.mem_cons_of_mem _ hx))]

theorem find?_append_none {α : Type} (p : α → Bool) (l₁ l₂ : List α)
    (h : l₁.find? p = none) : (l₁ ++ l₂).find? p = l₂.find? p := by
  induction l₁ with
  | nil => rfl
  | cons a l ih =>
    by_cases hpa : p a = true
    · rw [List.find?_cons_of_pos _ hpa] at h; cases h
    · rw [List.find?_cons_of_neg _ hpa] at h
      rw [List.cons_append, List.find?_cons_of_neg _ hpa]
      exact ih h

theorem splitOnP_ne_nil (p : Char → Bool) (l : Str) : splitOnP p l ≠ [] := by
  cases l with
  | nil => simp [splitOnP]
  | cons c rest =>
    unfold splitOnP
    by_cases h : p c = true
    · simp [h]
    · cases hs : splitOnP p rest <;> simp [h, hs]

theorem splitOnP_eq_single (p : Char → Bool) (l : Str)
    (h : ∀ c ∈ l, p c = false) : splitOnP p l = [l] := by
  induction l with
  | nil => rfl
  | cons c rest ih =>
    have hc : p c = false := h c (List.mem_cons_self _ _)
    simp [splitOnP, hc, ih (fun x hx => h x (List.mem_cons_of_mem _ hx))]

theorem splitOnP_append_sep (p : Char → Bool) (l r : Str) (d : Char)
    (hl : ∀ c ∈ l, p c = false) (hd : p d = true) :
    splitOnP p (l ++ d :: r) = l :: splitOnP p r := by
  induction l with
  | nil => simp [splitOnP, hd]
  | cons c l ih =>
    have hc : p c = false := hl c (List.mem_cons_self _ _)
    rw [List.cons_append]
    simp [splitOnP, hc, ih (fun x hx => hl x (List.mem_cons_of_mem _ hx))]

theorem splitOn_pair (c : Char) (l r : Str) (hl : ∀ x ∈ l, x ≠ c)
    (hr : ∀ x ∈ r, x ≠ c) : splitOn c (l ++ c :: r) = [l, r] := by
  unfold splitOn
  rw [splitOnP_append_sep _ _ _ _ (fun x hx => decide_eq_false (hl x hx))
    (by simp), splitOnP_eq_single _ _ (fun x hx => decide_eq_false (hr x hx))]

theorem splitOn_single (c : Char) (l : Str) (hl : ∀ x ∈ l, x ≠ c) :
    splitOn c l = [l] := by
  unfold splitOn
  exact splitOnP_eq_single _ _ (fun x hx => decide_eq_false (hl x hx))

def digitChars : Str := ['0', '1', '2', '3', '4', '5', '6', '7', '8', '9']

theorem all_isDigit_of_mem (u : Str) (h : ∀ c ∈ u, c ∈ digitChars) :
    u.all isDigitChar = true := by
  rw [List.all_eq_true]
  intro c hc
  have hm := h c hc
  simp only [digitChars, List.mem_cons, List.not_mem_nil, or_false] at hm
  rcases hm with rfl | rfl | rfl | rfl | rfl | rfl | rfl | rfl | rfl | rfl <;>
    decide

theorem digit_ne_of_mem (u : Str) (d : Char) (hd : d ∉ digitChars)
    (h : ∀ c ∈ u, c ∈ digitChars) : ∀ c ∈ u, c ≠ d := by
  intro c hc he
  exact hd (he ▸ h c hc)

/-! ## C9: the email normalizer accepts only well-shaped addresses -/

theorem clean_email_sound (s t : Str) (h : clean_email s = some t) :
    emailMatch t = true ∧ badDots t = false := by
  unfold clean_email at h
  by_cases hc : (emailMatch (emailNorm s) && !badDots (emailNorm s)) = true
  · rw [if_pos hc] at h
    injection h with h'
    subst h'
    rw [Bool.and_eq_true] at hc
    exact ⟨hc.1, by simpa using hc.2⟩
  · rw [if_neg hc] at h; cases h

/-- C9: every accepted email has a nonempty local part, an `@`, no
consecutive dots anywhere, no leading or trailing dot in the local or
domain part, at least one dot in the domain, and a TLD of at least two
letters; `"a..b@x.com"` is rejected and `" A@B.CoM "` normalises to
`"a@b.com"`. -/
theorem c9_email_shape_and_examples :
    (∀ s t, clean_email s = some t →
      hasSub ['.', '.'] t = false ∧
      ∃ lcl dom, splitAtFirst '@' t = some (lcl, dom) ∧
        lcl ≠ [] ∧
        lcl.head? ≠ some '.' ∧ lcl.getLast? ≠ some '.' ∧
        dom.head? ≠ some '.' ∧ dom.getLast? ≠ some '.' ∧
        '.' ∈ dom ∧
        2 ≤ ((splitOn '.' dom).getLast?.getD []).length ∧
        ((splitOn '.' dom).getLast?.getD []).all isAsciiLetter = true) ∧
    clean_email (str "a..b@x.com") = none ∧
    clean_email (str " A@B.CoM ") = some (str "a@b.com") := by
  refine ⟨?_, by decide, by decide⟩
  intro s t h
  obtain ⟨hm, hb⟩ := clean_email_sound s t h
  unfold emailMatch at hm
  rw [Bool.and_eq_true] at hm
  obtain ⟨hm1, hm2⟩ := hm
  refine ⟨by simpa using hm1, ?_⟩
  cases hsp : splitAtFirst '@' t with
  | none => rw [hsp] at hm2; cases hm2
  | some p =>
    obtain ⟨lcl, dom⟩ := p
    rw [hsp] at hm2
    simp only [Bool.and_eq_true, Bool.not_eq_true', decide_eq_true_eq,
      decide_eq_false_iff_not] at hm2
    obtain ⟨⟨⟨⟨⟨⟨hne, _⟩, _⟩, hlen2⟩, _⟩, htld⟩, htldA⟩ := hm2
    unfold badDots at hb
    rw [hsp] at hb
    simp only [Bool.or_eq_false_iff, decide_eq_false_iff_not] at hb
    obtain ⟨⟨⟨hb1, hb2⟩, hb3⟩, hb4⟩ := hb
    refine ⟨lcl, dom, rfl, hne, hb1, hb2, hb3, hb4, ?_, htld, htldA⟩
    by_contra hdot
    have hone : splitOn '.' dom = [dom] :=
      splitOn_single '.' dom (fun x hx he => hdot (he ▸ hx))
    rw [hone] at hlen2
    simp at hlen2

theorem c9_email_shape_witness :
    clean_email (str "a.b@mail.org") = some (str "a.b@mail.org") ∧
    (hasSub ['.', '.'] (str "a.b@mail.org") = false ∧
      ∃ lcl dom, splitAtFirst '@' (str "a.b@mail.org") = some (lcl, dom) ∧
        lcl ≠ [] ∧
        lcl.head? ≠ some '.' ∧ lcl.getLast? ≠ some '.' ∧
        dom.head? ≠ some '.' ∧ dom.getLast? ≠ some '.' ∧
        '.' ∈ dom ∧
        2 ≤ ((splitOn '.' dom).getLast?.getD []).length ∧
        ((splitOn '.' dom).getLast?.getD []).all isAsciiLetter = true) :=
  ⟨by decide, c9_email_shape_and_examples.1 (str "a.b@mail.org")
    (str "a.b@mail.org") (by decide)⟩

/-! ## C7: phone formatting for a known country -/

/-- C7 counterexample: the output claimed by the spec for the Swedish
example is not what the code produces (the leading trunk `0` of
`08...` is kept after the dial code, since `46` is not a prefix of the
digit string `08123456`). -/
theorem c7_phone_claimed_value_refuted :
    clean_phone (str "08-123 456") (str "Sweden") ≠
      some (str "(+46) 8123456") := by decide

/-- C7 (amended): for Sweden, `"08-123 456"` yields `"(+46) 08123456"` —
the dial code is applied but the leading trunk zero is kept; in general,
for a country with a dial-code entry, any returned value is exactly
`"(+" ++ code ++ ") "` followed by the full digit string, with the
dial-code prefix stripped only when the digit string already starts with
it. -/
theorem c7_phone_sweden_keeps_leading_zero :
    clean_phone (str "08-123 456") (str "Sweden") =
      some (str "(+46) 08123456") ∧
    (∀ phone country code r,
      alistGet COUNTRY_DIAL country = some code →
      clean_phone phone country = some r →
      (strStarts (code.dropWhile (· = '+'))
          ((phonePre phone).filter isDigitChar) = true →
        r = str "(+" ++ code.dropWhile (· = '+') ++ str ") " ++
          ((phonePre phone).filter isDigitChar).drop
            (code.dropWhile (· = '+')).length) ∧
      (strStarts (code.dropWhile (· = '+'))
          ((phonePre phone).filter isDigitChar) = false →
        r = str "(+" ++ code.dropWhile (· = '+') ++ str ") " ++
          (phonePre phone).filter isDigitChar)) := by
  refine ⟨by decide, ?_⟩
  intro phone country code r hcode hr
  unfold clean_phone at hr
  cases hf : fmtPhone (phonePre phone) country with
  | none => rw [hf] at hr; cases hr
  | some r' =>
    rw [hf] at hr
    dsimp only at hr
    have hrr : r' = r := by
      by_cases hok : 7 ≤ (r'.filter isDigitChar).length ∧
          (r'.filter isDigitChar).length ≤ 15
      · rw [if_pos hok] at hr; injection hr
      · rw [if_neg hok] at hr; cases hr
    subst hrr
    unfold fmtPhone at hf
    by_cases hemp : phonePre phone = []
    · rw [if_pos hemp] at hf; cases hf
    · rw [if_neg hemp, hcode] at hf
      dsimp only at hf
      constructor
      · intro hpre
        rw [if_pos hpre] at hf
        by_cases hdrop : ((phonePre phone).filter isDigitChar).drop
            (code.dropWhile (· = '+')).length = []
        · rw [if_pos hdrop] at hf; cases hf
        · rw [if_neg hdrop] at hf
          injection hf with h
          exact h.symm
      · intro hpre
        have hpre' : ¬(strStarts (code.dropWhile (· = '+'))
            ((phonePre phone).filter isDigitChar) = true) := by
          simp [hpre]
        rw [if_neg hpre'] at hf
        by_cases hd2 : (phonePre phone).filter isDigitChar = []
        · rw [if_pos hd2] at hf; cases hf
        · rw [if_neg hd2] at hf
          injection hf with h
          exact h.symm

theorem c7_phone_sweden_keeps_leading_zero_witness :
    alistGet COUNTRY_DIAL (str "Sweden") = some (str "+46") ∧
    clean_phone (str "08-123 456") (str "Sweden") =
      some (str "(+46) 08123456") ∧
    (strStarts ((str "+46").dropWhile (· = '+'))
        ((phonePre (str "08-123 456")).filter isDigitChar) = false →
      str "(+46) 08123456" = str "(+" ++ (str "+46").dropWhile (· = '+') ++
        str ") " ++ (phonePre (str "08-123 456")).filter isDigitChar) :=
  ⟨by decide, by decide,
    (c7_phone_sweden_keeps_leading_zero.2 (str "08-123 456") (str "Sweden")
      (str "+46") (str "(+46) 08123456") (by decide) (by decide)).2⟩

/-! ## C6: the date normalizer's parse-order priority -/

/-- C6 counterexample: on `"01/02/2020"` (both fields parseable either
way) the code returns `2020-01-02` — `dayfirst=False` is tried first in
the loop `for dayfirst in (False, True)` — while the claimed day-first
priority would return `2020-02-01`. -/
theorem c6_dayfirst_priority_refuted :
    clean_date_dayfirst_priority 2025 (str "01/02/2020") ≠
      clean_date_iso 2025 (str "01/02/2020") := by decide

/-- C6 (corrected): the code tries month-first (`dayfirst=False`) before
day-first, the opposite of the claimed priority; whenever the month-first
parse succeeds it decides the result, subject only to the year cutoff
`nowYear + 50`, and when neither parse succeeds the value is missing.
The claim's examples do hold: `"31/12/2020"` and `"12/31/2020"` both give
`"2020-12-31"` (month 31 is impossible, so day and month are swapped),
and a year-2090 date is missing. -/
theorem c6_date_monthfirst_priority_and_examples :
    clean_date_iso 2025 (str "31/12/2020") = some (str "2020-12-31") ∧
    clean_date_iso 2025 (str "12/31/2020") = some (str "2020-12-31") ∧
    clean_date_iso 2025 (str "01/01/2090") = none ∧
    (∀ nowYear x ymd, pdToDatetime false (datePre x) = some ymd →
      clean_date_iso nowYear x =
        if ymd.1 > nowYear + 50 then none else some (fmtDate ymd)) ∧
    (∀ nowYear x, pdToDatetime false (datePre x) = none →
      pdToDatetime true (datePre x) = none →
      clean_date_iso nowYear x = none) := by
  refine ⟨by decide, by decide, by decide, ?_, ?_⟩
  · intro nowYear x ymd h
    unfold clean_date_iso
    rw [h]
  · intro nowYear x h1 h2
    unfold clean_date_iso
    rw [h1, h2]

theorem c6_date_monthfirst_priority_witness :
    pdToDatetime false (datePre (str "05/06/2021")) = some (2021, 5, 6) ∧
    clean_date_iso 2025 (str "05/06/2021") =
      (if (2021, 5, 6).1 > 2025 + 50 then none
       else some (fmtDate (2021, 5, 6))) :=
  ⟨by decide, c6_date_monthfirst_priority_and_examples.2.2.2.1 2025
    (str "05/06/2021") (2021, 5, 6) (by decide)⟩

/-! ## C8: separator semantics of the money normalizer -/

def amountChars : Str := digitChars ++ [',', '.']

theorem mem_amountChars_cases (c : Char) (hm : c ∈ amountChars) :
    c = '0' ∨ c = '1' ∨ c = '2' ∨ c = '3' ∨ c = '4' ∨ c = '5' ∨ c = '6' ∨
    c = '7' ∨ c = '8' ∨ c = '9' ∨ c = ',' ∨ c = '.' := by
  simpa [amountChars, digitChars, or_assoc] using hm

theorem rmTok_step (c : Char) (rest : Str) (hm : c ∈ amountChars) :
    curTokens.find?
      (fun tok => strStarts (pyLower tok) (pyLower (c :: rest))) = none := by
  have hm' := mem_amountChars_cases c hm
  have h1 : asciiLower c = c := by
    rcases hm' with rfl | rfl | rfl | rfl | rfl | rfl | rfl | rfl | rfl |
      rfl | rfl | rfl <;> rfl
  have h2 : c ≠ 'u' ∧ c ≠ 'e' ∧ c ≠ 's' ∧ c ≠ 'k' ∧ c ≠ '$' ∧ c ≠ 'â' := by
    rcases hm' with rfl | rfl | rfl | rfl | rfl | rfl | rfl | rfl | rfl |
      rfl | rfl | rfl <;> exact ⟨by decide, by decide, by decide, by decide,
        by decide, by decide⟩
  have hcl : pyLower (c :: rest) = c :: pyLower rest := by
    show asciiLower c :: pyLower rest = c :: pyLower rest
    rw [h1]
  rw [List.find?_eq_none]
  intro tok htok
  rw [hcl]
  fin_cases htok
  · rw [show pyLower (str "usd") = ['u', 's', 'd'] from by decide]
    simp [strStarts, Ne.symm h2.1]
  · rw [show pyLower (str "eur") = ['e', 'u', 'r'] from by decide]
    simp [strStarts, Ne.symm h2.2.1]
  · rw [show pyLower (str "sek") = ['s', 'e', 'k'] from by decide]
    simp [strStarts, Ne.symm h2.2.2.1]
  · rw [show pyLower (str "kr") = ['k', 'r'] from by decide]
    simp [strStarts, Ne.symm h2.2.2.2.1]
  · rw [show pyLower (str "$") = ['$'] from by decide]
    simp [strStarts, Ne.symm h2.2.2.2.2.1]
  · rw [show pyLower ['â', '‚', '¬'] = ['â', '‚', '¬'] from by decide]
    simp [strStarts, Ne.symm h2.2.2.2.2.2]

theorem rmTokAux_id (fuel : Nat) (t : Str)
    (h : ∀ c ∈ t, c ∈ amountChars) : rmTokAux fuel t = t := by
  induction fuel generalizing t with
  | zero => rfl
  | succ fuel ih =>
    cases t with
    | nil => rfl
    | cons c rest =>
      rw [rmTokAux, rmTok_step c rest (h c (List.mem_cons_self _ _))]
      exact congrArg (c :: ·)
        (ih rest (fun x hx => h x (List.mem_cons_of_mem _ hx)))

theorem removeCurrencyTokens_id (t : Str)
    (h : ∀ c ∈ t, c ∈ amountChars) : removeCurrencyTokens t = t :=
  rmTokAux_id _ _ h

/-- On a string of digits and separators nothing before the separator
resolution of `_normalize_amount` changes the string. -/
theorem normalize_amount_clean (t : Str) (h : ∀ c ∈ t, c ∈ amountChars) :
    _normalize_amount t = parsePyFloat (sepResolve t) := by
  unfold _normalize_amount
  rw [maybe_demojibake_id]
  rw [map_id_of _ _ (fun c hc => by
    rcases mem_amountChars_cases c (h c hc) with rfl | rfl | rfl | rfl |
      rfl | rfl | rfl | rfl | rfl | rfl | rfl | rfl <;> rfl)]
  rw [removeCurrencyTokens_id t h]
  have h1 : t.filter (fun c => c ≠ ';' && c ≠ ' ') = t :=
    List.filter_eq_self.mpr (fun c hc => by
      rcases mem_amountChars_cases c (h c hc) with rfl | rfl | rfl | rfl |
        rfl | rfl | rfl | rfl | rfl | rfl | rfl | rfl <;> decide)
  rw [h1]
  have h2 : t.filter (fun c => isDigitChar c || c = ',' || c = '.') = t :=
    List.filter_eq_self.mpr (fun c hc => by
      rcases mem_amountChars_cases c (h c hc) with rfl | rfl | rfl | rfl |
        rfl | rfl | rfl | rfl | rfl | rfl | rfl | rfl <;> decide)
  rw [h2]

theorem mem_digitChars_cases (c : Char) (hm : c ∈ digitChars) :
    c = '0' ∨ c = '1' ∨ c = '2' ∨ c = '3' ∨ c = '4' ∨ c = '5' ∨ c = '6' ∨
    c = '7' ∨ c = '8' ∨ c = '9' := by
  simpa [digitChars, or_assoc] using hm

theorem filter_ne_of_digits (u : Str) (d : Char) (hd : d ∉ digitChars)
    (hu : ∀ c ∈ u, c ∈ digitChars) : u.filter (· ≠ d) = u :=
  List.filter_eq_self.mpr (fun c hc =>
    decide_eq_true (digit_ne_of_mem u d hd hu c hc))

theorem map_swap_digits (u : Str) (hu : ∀ c ∈ u, c ∈ digitChars) :
    u.map (fun c => if c = ',' then '.' else c) = u :=
  map_id_of _ _ (fun c hc => by
    rcases mem_digitChars_cases c (hu c hc) with rfl | rfl | rfl | rfl |
      rfl | rfl | rfl | rfl | rfl | rfl <;> rfl)

theorem find?_digits_none (l : Str) (hl : ∀ c ∈ l, c ∈ digitChars) :
    l.find? (fun c => c = ',' || c = '.') = none := by
  rw [List.find?_eq_none]
  intro x hx
  rcases mem_digitChars_cases x (hl x hx) with rfl | rfl | rfl | rfl |
    rfl | rfl | rfl | rfl | rfl | rfl <;> decide

theorem rfind_sep (wrev rest : Str) (hw : ∀ c ∈ wrev, c ∈ digitChars)
    (d : Char) (hd : (fun c => c = ',' || c = '.') d = true) :
    ((wrev ++ d :: rest)).find? (fun c => c = ',' || c = '.') = some d := by
  rw [find?_append_none _ _ _ (find?_digits_none wrev hw)]
  exact List.find?_cons_of_pos _ hd

theorem parsePyFloat_int (u : Str) (hu : ∀ c ∈ u, c ∈ digitChars)
    (hne : u ≠ []) : parsePyFloat u = some (digitsToNat u, 0) := by
  unfold parsePyFloat
  rw [splitOn_single '.' u (digit_ne_of_mem u '.' (by decide) hu)]
  simp [hne, all_isDigit_of_mem u hu]

theorem parsePyFloat_frac (a b : Str) (ha : ∀ c ∈ a, c ∈ digitChars)
    (hb : ∀ c ∈ b, c ∈ digitChars) (hne : a ≠ [] ∨ b ≠ []) :
    parsePyFloat (a ++ '.' :: b) = some (digitsToNat (a ++ b), b.length) := by
  unfold parsePyFloat
  rw [splitOn_pair '.' a b (digit_ne_of_mem a '.' (by decide) ha)
    (digit_ne_of_mem b '.' (by decide) hb)]
  simp [hne, all_isDigit_of_mem a ha, all_isDigit_of_mem b hb]

/-- Both separators, right-most is the comma: dots are discarded, the
comma becomes the decimal dot. -/
theorem sepResolve_both_comma_last (u v w : Str)
    (hu : ∀ c ∈ u, c ∈ digitChars) (hv : ∀ c ∈ v, c ∈ digitChars)
    (hw : ∀ c ∈ w, c ∈ digitChars) :
    sepResolve (u ++ '.' :: v ++ ',' :: w) = (u ++ v) ++ '.' :: w := by
  have hrev : (u ++ '.' :: v ++ ',' :: w).reverse =
      w.reverse ++ ',' :: (v.reverse ++ '.' :: u.reverse) := by
    simp
  have hfind : (u ++ '.' :: v ++ ',' :: w).reverse.find?
      (fun c => c = ',' || c = '.') = some ',' := by
    rw [hrev]
    exact rfind_sep w.reverse _
      (fun c hc => hw c (List.mem_reverse.mp hc)) ',' (by decide)
  have hA : ((',' ∈ u ++ '.' :: v ++ ',' :: w) &&
      ('.' ∈ u ++ '.' :: v ++ ',' :: w)) = true := by simp
  unfold sepResolve
  rw [if_pos hA, if_pos hfind]
  rw [List.filter_append, List.filter_append,
    filter_ne_of_digits u '.' (by decide) hu,
    List.filter_cons_of_neg (by decide),
    filter_ne_of_digits v '.' (by decide) hv,
    List.filter_cons_of_pos (by decide),
    filter_ne_of_digits w '.' (by decide) hw,
    List.map_append, List.map_append, map_swap_digits u hu,
    map_swap_digits v hv, List.map_cons, map_swap_digits w hw]
  rfl

/-- Both separators, right-most is the dot: commas are discarded. -/
theorem sepResolve_both_dot_last (u v w : Str)
    (hu : ∀ c ∈ u, c ∈ digitChars) (hv : ∀ c ∈ v, c ∈ digitChars)
    (hw : ∀ c ∈ w, c ∈ digitChars) :
    sepResolve (u ++ ',' :: v ++ '.' :: w) = (u ++ v) ++ '.' :: w := by
  have hrev : (u ++ ',' :: v ++ '.' :: w).reverse =
      w.reverse ++ '.' :: (v.reverse ++ ',' :: u.reverse) := by
    simp
  have hfind : (u ++ ',' :: v ++ '.' :: w).reverse.find?
      (fun c => c = ',' || c = '.') = some '.' := by
    rw [hrev]
    exact rfind_sep w.reverse _
      (fun c hc => hw c (List.mem_reverse.mp hc)) '.' (by decide)
  have hA : ((',' ∈ u ++ ',' :: v ++ '.' :: w) &&
      ('.' ∈ u ++ ',' :: v ++ '.' :: w)) = true := by simp
  have hB : ¬((u ++ ',' :: v ++ '.' :: w).reverse.find?
      (fun c => c = ',' || c = '.') = some ',') := by
    rw [hfind]; simp
  unfold sepResolve
  rw [if_pos hA, if_neg hB]
  rw [List.filter_append, List.filter_append,
    filter_ne_of_digits u ',' (by decide) hu,
    List.filter_cons_of_neg (by decide),
    filter_ne_of_digits v ',' (by decide) hv,
    List.filter_cons_of_pos (by decide),
    filter_ne_of_digits w ',' (by decide) hw]

theorem dot_not_mem_comma_shape (u v : Str)
    (hu : ∀ c ∈ u, c ∈ digitChars) (hv : ∀ c ∈ v, c ∈ digitChars) :
    ¬('.' ∈ u ++ ',' :: v) := by
  intro hmem
  rcases List.mem_append.mp hmem with hmem | hmem
  · exact digit_ne_of_mem u '.' (by decide) hu '.' hmem rfl
  · rcases List.mem_cons.mp hmem with hmem | hmem
    · cases hmem
    · exact digit_ne_of_mem v '.' (by decide) hv '.' hmem rfl

theorem splitOn_comma_shape (u v : Str)
    (hu : ∀ c ∈ u, c ∈ digitChars) (hv : ∀ c ∈ v, c ∈ digitChars) :
    splitOn ',' (u ++ ',' :: v) = [u, v] :=
  splitOn_pair ',' u v (digit_ne_of_mem u ',' (by decide) hu)
    (digit_ne_of_mem v ',' (by decide) hv)

/-- Only a comma, final group of two or three digits: the comma is a
decimal separator. -/
theorem sepResolve_comma_decimal (u v : Str)
    (hu : ∀ c ∈ u, c ∈ digitChars) (hv : ∀ c ∈ v, c ∈ digitChars)
    (h23 : v.length = 2 ∨ v.length = 3) :
    sepResolve (u ++ ',' :: v) = u ++ '.' :: v := by
  unfold sepResolve
  split
  · next hboth =>
    rw [Bool.and_eq_true] at hboth
    exact absurd (of_decide_eq_true hboth.2)
      (dot_not_mem_comma_shape u v hu hv)
  · split
    · split
      · rw [List.map_append, map_swap_digits u hu, List.map_cons,
          map_swap_digits v hv]
        rfl
      · next hn =>
        rw [splitOn_comma_shape u v hu hv] at hn
        exact absurd h23 (by simpa using hn)
    · next hno =>
      exact absurd (by
        simp [dot_not_mem_comma_shape u v hu hv] :
          ((',' ∈ u ++ ',' :: v) && !('.' ∈ u ++ ',' :: v)) = true) hno

/-- Only a comma, final group of another length: the comma is a thousands
separator and is discarded. -/
theorem sepResolve_comma_thousands (u v : Str)
    (hu : ∀ c ∈ u, c ∈ digitChars) (hv : ∀ c ∈ v, c ∈ digitChars)
    (h23 : ¬(v.length = 2 ∨ v.length = 3)) :
    sepResolve (u ++ ',' :: v) = u ++ v := by
  unfold sepResolve
  split
  · next hboth =>
    rw [Bool.and_eq_true] at hboth
    exact absurd (of_decide_eq_true hboth.2)
      (dot_not_mem_comma_shape u v hu hv)
  · split
    · split
      · next h23' =>
        rw [splitOn_comma_shape u v hu hv] at h23'
        exact absurd (by simpa using h23') h23
      · rw [List.filter_append,
          filter_ne_of_digits u ',' (by decide) hu,
          List.filter_cons_of_neg (by decide),
          filter_ne_of_digits v ',' (by decide) hv]
    · next hno =>
      exact absurd (by
        simp [dot_not_mem_comma_shape u v hu hv] :
          ((',' ∈ u ++ ',' :: v) && !('.' ∈ u ++ ',' :: v)) = true) hno

theorem digit_mem_amount (c : Char) (h : c ∈ digitChars) :
    c ∈ amountChars :=
  List.mem_append_left _ h

theorem amount_mem_shape (l r : Str) (d : Char)
    (hl : ∀ c ∈ l, c ∈ amountChars) (hr : ∀ c ∈ r, c ∈ amountChars)
    (hd : d ∈ amountChars) : ∀ c ∈ l ++ d :: r, c ∈ amountChars := by
  intro c hc
  rcases List.mem_append.mp hc with h | h
  · exact hl c h
  · rcases List.mem_cons.mp h with rfl | h
    · exact hd
    · exact hr c h

/-- C8: `"1.234,56 €"` gives `"1234.56 EUR"` (the EUR pattern fires even
though the real `€` matches no `CUR_HINTS` key) and `"1,234.56"` gives
`"1234.56"` with no suffix; with both separators present the right-most
one is the decimal separator and the other is discarded, and with only a
comma present it is a decimal separator exactly when the final
comma-delimited group has two or three digits. -/
theorem c8_money_separator_semantics :
    clean_total_spent (str "1.234,56 €") = some (str "1234.56 EUR") ∧
    clean_total_spent (str "1,234.56") = some (str "1234.56") ∧
    (∀ u v w : Str, (∀ c ∈ u, c ∈ digitChars) → (∀ c ∈ v, c ∈ digitChars) →
      (∀ c ∈ w, c ∈ digitChars) → u ≠ [] →
      _normalize_amount (u ++ '.' :: v ++ ',' :: w) =
        some (digitsToNat (u ++ v ++ w), w.length) ∧
      _normalize_amount (u ++ ',' :: v ++ '.' :: w) =
        some (digitsToNat (u ++ v ++ w), w.length)) ∧
    (∀ u v : Str, (∀ c ∈ u, c ∈ digitChars) → (∀ c ∈ v, c ∈ digitChars) →
      u ≠ [] →
      _normalize_amount (u ++ ',' :: v) =
        if v.length = 2 ∨ v.length = 3 then
          some (digitsToNat (u ++ v), v.length)
        else some (digitsToNat (u ++ v), 0)) := by
  refine ⟨by decide, by decide, ?_, ?_⟩
  · intro u v w hu hv hw hune
    have hu' : ∀ c ∈ u, c ∈ amountChars := fun c hc =>
      digit_mem_amount c (hu c hc)
    have hv' : ∀ c ∈ v, c ∈ amountChars := fun c hc =>
      digit_mem_amount c (hv c hc)
    have hw' : ∀ c ∈ w, c ∈ amountChars := fun c hc =>
      digit_mem_amount c (hw c hc)
    have huv : ∀ c ∈ u ++ v, c ∈ digitChars := fun c hc =>
      (List.mem_append.mp hc).elim (hu c) (hv c)
    have huvne : u ++ v ≠ [] := fun h =>
      hune (List.append_eq_nil.mp h).1
    constructor
    · rw [normalize_amount_clean _
        (amount_mem_shape _ _ ','
          (amount_mem_shape _ _ '.' hu' hv' (by decide)) hw' (by decide)),
        sepResolve_both_comma_last u v w hu hv hw,
        parsePyFloat_frac (u ++ v) w huv hw (Or.inl huvne)]
    · rw [normalize_amount_clean _
        (amount_mem_shape _ _ '.'
          (amount_mem_shape _ _ ',' hu' hv' (by decide)) hw' (by decide)),
        sepResolve_both_dot_last u v w hu hv hw,
        parsePyFloat_frac (u ++ v) w huv hw (Or.inl huvne)]
  · intro u v hu hv hune
    have hu' : ∀ c ∈ u, c ∈ amountChars := fun c hc =>
      digit_mem_amount c (hu c hc)
    have hv' : ∀ c ∈ v, c ∈ amountChars := fun c hc =>
      digit_mem_amount c (hv c hc)
    have hall : ∀ c ∈ u ++ ',' :: v, c ∈ amountChars :=
      amount_mem_shape _ _ ',' hu' hv' (by decide)
    have huv : ∀ c ∈ u ++ v, c ∈ digitChars := fun c hc =>
      (List.mem_append.mp hc).elim (hu c) (hv c)
    have huvne : u ++ v ≠ [] := fun h =>
      hune (List.append_eq_nil.mp h).1
    by_cases h23 : v.length = 2 ∨ v.length = 3
    · rw [if_pos h23, normalize_amount_clean _ hall,
        sepResolve_comma_decimal u v hu hv h23,
        parsePyFloat_frac u v hu hv (Or.inl hune)]
    · rw [if_neg h23, normalize_amount_clean _ hall,
        sepResolve_comma_thousands u v hu hv h23,
        parsePyFloat_int (u ++ v) huv huvne]

theorem c8_money_separator_semantics_witness :
    _normalize_amount (str "1" ++ '.' :: str "234" ++ ',' :: str "56") =
      some (digitsToNat (str "1" ++ str "234" ++ str "56"),
        (str "56").length) ∧
    _normalize_amount (str "12" ++ ',' :: str "34") =
      (if (str "34").length = 2 ∨ (str "34").length = 3 then
        some (digitsToNat (str "12" ++ str "34"), (str "34").length)
      else some (digitsToNat (str "12" ++ str "34"), 0)) :=
  ⟨(c8_money_separator_semantics.2.2.1 (str "1") (str "234") (str "56")
      (by decide) (by decide) (by decide) (by decide)).1,
    c8_money_separator_semantics.2.2.2 (str "12") (str "34")
      (by decide) (by decide) (by decide)⟩

/-! ## C3: canonicalization is not idempotent -/

/-- A counterexample column for idempotence.  The three distinct values
share a 20-letter prefix; with X = `...aaqbb`, Y = `...bbraabb` and
Z = `...aaqbc`, the similarity of Z to X is 24/25 and of Y to X is 11/13
(below the 0.92 cutoff), but of Y to the two-element merged cluster
nothing changes while the ratio of Y against X measured from Y's side is
12/13 (above the cutoff).  Run one merges only Z into X; run two, on the
canonical output, merges Y into X as well, so the output changes. -/
def colC3 : List Str :=
  [str "cdefghijklmnostuvwxzaaqbb", str "cdefghijklmnostuvwxzaaqbb",
   str "cdefghijklmnostuvwxzbbraabb", str "cdefghijklmnostuvwxzbbraabb",
   str "cdefghijklmnostuvwxzbbraabb", str "cdefghijklmnostuvwxzaaqbc"]

set_option maxRecDepth 10000 in
/-- C3 counterexample: applying `clean_city` to the (all-present) output
of `clean_city` does not return it unchanged — `difflib.ratio` is
asymmetric, so a pair unmerged in run one (ratio 11/13 measured against
the larger original column) is merged in run two (ratio 12/13 on the
re-ordered canonical column), and the claimed idempotence fails. -/
theorem c3_idempotence_counterexample :
    clean_city ((clean_city colC3).map (fun o => o.getD [])) ≠
      clean_city colC3 := by
  decide

end CleanData
